import Mathlib

/-!
Shallow embedding of the advanced tree-search space engine
(src/Search/AdvancedTreeSearch/SearchSpace.cc) for verification of the
specification's claims.  Scores (C++ f32) are modelled as rationals; the
numeric "impossible" sentinel Core::Type<Score>::max / F32_MAX is modelled
as the distinguished constant scoreMax.
-/

namespace RasrSearch

/-- Scores (`Search::Score`, C++ f32) are modelled as rationals. -/
abbrev Score := ℚ

/-- The numeric sentinel `Core::Type<Score>::max` / `F32_MAX` (≈3.4e38),
modelled as the exact rational value of the largest finite f32. -/
def scoreMax : Score := 340282346638528859811704183484516925440

/-- Network state index (`Search::StateId`). -/
abbrev StateId := ℕ

/-- Trace reference (`Search::TraceId`), opaque here. -/
abbrev TraceId := ℕ

/-- `Search::StateHypothesis`: network state, accumulated score,
prospect score (used only for pruning) and the trace back-reference. -/
structure StateHypothesis where
  state : StateId
  score : Score
  prospect : Score
  trace : TraceId
deriving Repr, DecidableEq

/-! ## Recombination during expansion

The mutable context of `SearchSpace::activateOrUpdateStateHypothesis{Loop,
Transition,Directly}`: the growing `newStateHypotheses` array, the
`stateHypothesisRecombinationArray` side array (indexed by network state,
holding positions in `newStateHypotheses`), and the window lower bound
`currentTreeFirstNewStateHypothesis`.  The C++ code may read the array slot
of a not-yet-allocated position; we model that read with `List.get?`, which
also makes the out-of-range branch of the window check explicit. -/
structure RecombState where
  newStateHypotheses : List StateHypothesis
  stateHypothesisRecombinationArray : List ℕ
  currentTreeFirstNewStateHypothesis : ℕ
deriving Repr, DecidableEq

/-- The window check of `activateOrUpdateStateHypothesis*`: the recombination
entry is stale (treated as absent) unless it points inside
`[currentTreeFirstNewStateHypothesis, newStateHypotheses.size())` and the
hypothesis stored there is for the looked-up state. -/
def recombinationMiss (s : RecombState) (recombination : ℕ) (state : StateId) : Bool :=
  decide (recombination < s.currentTreeFirstNewStateHypothesis) ||
  decide (s.newStateHypotheses.length ≤ recombination) ||
  decide ((s.newStateHypotheses.get? recombination).map StateHypothesis.state ≠ some state)

/-- `SearchSpace::activateOrUpdateStateHypothesisLoop`: recombines `hyp`
with loop score `score` against the hypothesis already stored for the same
state in the current instance window, or appends it as a new entry. -/
def activateOrUpdateStateHypothesisLoop (s : RecombState) (hyp : StateHypothesis)
    (score : Score) : RecombState :=
  let recombination := s.stateHypothesisRecombinationArray.getD hyp.state 0
  if recombinationMiss s recombination hyp.state then
    { s with
      stateHypothesisRecombinationArray :=
        s.stateHypothesisRecombinationArray.set hyp.state s.newStateHypotheses.length,
      newStateHypotheses := s.newStateHypotheses ++ [{ hyp with score := score }] }
  else
    match s.newStateHypotheses.get? recombination with
    | some sh =>
      if sh.score ≥ score then
        { s with newStateHypotheses :=
            s.newStateHypotheses.set recombination { sh with score := score, trace := hyp.trace } }
      else s
    | none => s

/-- `SearchSpace::activateOrUpdateStateHypothesisTransition`: like the loop
variant, but targeting `successorState`; a newly created entry gets its
`state` field overwritten with the successor. -/
def activateOrUpdateStateHypothesisTransition (s : RecombState) (hyp : StateHypothesis)
    (score : Score) (successorState : StateId) : RecombState :=
  let recombination := s.stateHypothesisRecombinationArray.getD successorState 0
  if recombinationMiss s recombination successorState then
    { s with
      stateHypothesisRecombinationArray :=
        s.stateHypothesisRecombinationArray.set successorState s.newStateHypotheses.length,
      newStateHypotheses :=
        s.newStateHypotheses ++ [{ hyp with score := score, state := successorState }] }
  else
    match s.newStateHypotheses.get? recombination with
    | some sh =>
      if sh.score ≥ score then
        { s with newStateHypotheses :=
            s.newStateHypotheses.set recombination { sh with score := score, trace := hyp.trace } }
      else s
    | none => s

/-- `SearchSpace::activateOrUpdateStateHypothesisDirectly`: recombination
with the hypothesis' own score (used for back-off transfer entries). -/
def activateOrUpdateStateHypothesisDirectly (s : RecombState) (hyp : StateHypothesis) :
    RecombState :=
  let recombination := s.stateHypothesisRecombinationArray.getD hyp.state 0
  if recombinationMiss s recombination hyp.state then
    { s with
      stateHypothesisRecombinationArray :=
        s.stateHypothesisRecombinationArray.set hyp.state s.newStateHypotheses.length,
      newStateHypotheses := s.newStateHypotheses ++ [hyp] }
  else
    match s.newStateHypotheses.get? recombination with
    | some sh =>
      if sh.score ≥ hyp.score then
        { s with newStateHypotheses :=
            s.newStateHypotheses.set recombination { sh with score := hyp.score, trace := hyp.trace } }
      else s
    | none => s

/-! ## Compiled network and HMM expansion

The compiled network structure (`TreeStructure.hh` / `HMMStateNetwork`) is a
collaborator whose sources are not part of this tree.
Modelled from the spec: successor enumeration of a state either has a
precomputed batched contiguous range of successor ids (with a dedicated
single-successor encoding, `SingleSuccessorBatchMask`), or falls back to a
generic linked-list walk; both denote the same successor set. -/
inductive SuccEncoding where
  /-- the `SingleSuccessorBatchMask` encoding of exactly one successor -/
  | single (s : StateId)
  /-- a precomputed contiguous successor-id batch `[a, b)` -/
  | batch (a b : ℕ)
  /-- the irregular generic linked-list form -/
  | irregular (l : List StateId)
deriving Repr, DecidableEq

/-- The successor set denoted by an encoding (what the generic
`SuccessorIterator` walk of `HMMStateNetwork` enumerates). -/
def SuccEncoding.successorList : SuccEncoding → List StateId
  | .single s => [s]
  | .batch a b => List.range' a (b - a)
  | .irregular l => l

/-- `HMMStateNetwork::batchSuccessorsSimple<true>`: the contiguous range when
the encoding is batched (a single successor is the one-element range), and
`(-1, …)` — here `none` — for the irregular form. -/
def batchSuccessorsSimple : SuccEncoding → Option (ℕ × ℕ)
  | .single s => some (s, s + 1)
  | .batch a b => some (a, b)
  | .irregular _ => none

/-- `HMMStateNetwork::batchSuccessorsSimpleIgnoreLabels`: identical range
extraction (labels were already removed from the network before search). -/
def batchSuccessorsSimpleIgnoreLabels : SuccEncoding → Option (ℕ × ℕ)
  | .single s => some (s, s + 1)
  | .batch a b => some (a, b)
  | .irregular _ => none

/-- The test `(state.successors & SingleSuccessorBatchMask) ==
SingleSuccessorBatchMask` with extraction `successors & ~mask`. -/
def singleSuccessor : SuccEncoding → Option StateId
  | .single s => some s
  | _ => none

/-- `Am::StateTransitionModel` scores for one state descriptor
(loop / forward / skip / exit transition penalties). -/
structure Tdp where
  loop : Score
  forward : Score
  skip : Score
  exit : Score
deriving Repr, DecidableEq

/-- The slice of the compiled network consumed by state expansion:
per-state successor encoding, transition model, and the per-state
`secondOrderEdgeSuccessorBatches_` range (successors of successors;
the pair `(0, 0)` marks "not representable, use slow expansion"). -/
structure Network where
  succ : StateId → SuccEncoding
  tdp : StateId → Tdp
  secondOrder : StateId → ℕ × ℕ

/-- One recombination update emitted during expansion of a hypothesis: the
target state and the score passed to `activateOrUpdateStateHypothesis*`. -/
abbrev Update := StateId × Score

/-- The second-order expansion of one forward successor inside
`expandStateSlow` (successors of `successor`, through the batch range when
`batchSuccessorsSimple` yields one, else through the generic successor
iterator). -/
def slowSecondOrderExpansion (net : Network) (successor : StateId)
    (skipScore : Score) : List Update :=
  match batchSuccessorsSimple (net.succ successor) with
  | some (c, d) => (List.range' c (d - c)).map (fun s2 => (s2, skipScore))
  | none => (net.succ successor).successorList.map (fun s2 => (s2, skipScore))

/-- `SearchSpace::expandStateSlow<expandForward, expandSkip>`: the slow
generic expansion, collected as the list of emitted recombination updates in
emission order. -/
def expandStateSlow (net : Network) (expandForward expandSkip : Bool)
    (hyp : StateHypothesis) : List Update :=
  let tdp := net.tdp hyp.state
  let skipScore := hyp.score + tdp.skip
  let doSkip0 : Bool := expandSkip && decide (skipScore < scoreMax)
  let second := net.secondOrder hyp.state
  -- `if(doSkip && secondStart != 0)`: use the second-order batch directly
  let usedSecondBatch : Bool := doSkip0 && decide (second.1 ≠ 0)
  let secondPart : List Update :=
    if usedSecondBatch then (List.range' second.1 (second.2 - second.1)).map (fun a => (a, skipScore))
    else []
  let doSkip : Bool := doSkip0 && !usedSecondBatch
  let forwardScore := hyp.score + tdp.forward
  let forwardPart : List Update :=
    if forwardScore < scoreMax then
      match batchSuccessorsSimple (net.succ hyp.state) with
      | some (a, b) =>
        (List.range' a (b - a)).flatMap (fun successor =>
          (if expandForward then [(successor, forwardScore)] else []) ++
          (if expandSkip && doSkip then slowSecondOrderExpansion net successor skipScore
           else []))
      | none =>
        (net.succ hyp.state).successorList.flatMap (fun successor =>
          (if expandForward then [(successor, forwardScore)] else []) ++
          (if expandSkip && doSkip then
            (net.succ successor).successorList.map (fun s2 => (s2, skipScore))
          else []))
    else []
  secondPart ++ forwardPart

/-- The skip-transition section of `SearchSpace::expandState<allowSkip>`:
the precomputed second-order batch if present, the slow second-order-only
expansion if the batch structure cannot hold the successors. -/
def expandStateSkipPart (net : Network) (hyp : StateHypothesis) : List Update :=
  let second := net.secondOrder hyp.state
  if second.1 ≠ second.2 then
    let skipScore := hyp.score + (net.tdp hyp.state).skip
    if skipScore < scoreMax then
      (List.range' second.1 (second.2 - second.1)).map (fun s2 => (s2, skipScore))
    else []
  else if second.1 = 0 then expandStateSlow net false true hyp
  else []

/-- `SearchSpace::expandState<allowSkip>`: the fast expansion path, collected
as the list of emitted recombination updates (loop, then forward, then skip);
falls back entirely to `expandStateSlow` on an irregular successor encoding. -/
def expandState (net : Network) (allowSkip : Bool) (hyp : StateHypothesis) : List Update :=
  let tdp := net.tdp hyp.state
  let loopScore := hyp.score + tdp.loop
  let loopPart : List Update :=
    if loopScore < scoreMax then [(hyp.state, loopScore)] else []
  match singleSuccessor (net.succ hyp.state) with
  | some forwardSuccessor =>
    let forwardScore := hyp.score + tdp.forward
    let forwardPart : List Update :=
      if forwardScore < scoreMax then [(forwardSuccessor, forwardScore)] else []
    loopPart ++ forwardPart ++ (if allowSkip then expandStateSkipPart net hyp else [])
  | none =>
    match batchSuccessorsSimpleIgnoreLabels (net.succ hyp.state) with
    | none =>
      -- irregular linked-list form: use the slow non-optimized expansion
      loopPart ++ expandStateSlow net true allowSkip hyp
    | some (a, b) =>
      let forwardScore := hyp.score + tdp.forward
      let forwardPart : List Update :=
        if forwardScore < scoreMax then
          (List.range' a (b - a)).map (fun successor => (successor, forwardScore))
        else []
      loopPart ++ forwardPart ++ (if allowSkip then expandStateSkipPart net hyp else [])

/-! ## Word-end hypotheses and recombination -/

/-- `SearchAlgorithm::ScoreVector`: acoustic and LM score components.
Modelled from the spec: the struct's sources are not in this tree; ordering
comparisons (`operator<`, `operator>`) are by total score, as the spec's
"minimum total score" selection describes. -/
structure ScoreVector where
  acoustic : Score
  lm : Score
deriving Repr, DecidableEq

/-- Total score of a score vector. -/
def ScoreVector.total (v : ScoreVector) : Score := v.acoustic + v.lm

/-- `Search::WordEndHypothesis`.  The LM histories and the pronunciation are
opaque ids here.  The trace with its sibling chain (lattice mode) is
modelled as the list of trace ids reachable via `sibling`, head = primary. -/
structure WordEndHypothesis where
  history : ℕ
  lookaheadHistory : ℕ
  transitState : StateId
  pronunciation : ℕ
  endExit : ℕ
  score : ScoreVector
  trace : List TraceId
deriving Repr, DecidableEq

instance : Inhabited WordEndHypothesis := ⟨⟨0, 0, 0, 0, 0, ⟨0, 0⟩, []⟩⟩

/-- `SearchSpace::recombineTwoHypotheses(a, b, shallCreateLattice)`:
`a` is the incoming hypothesis, `b` the stored one; returns the updated
stored hypothesis.  The incoming wins iff `b.score > a.score` or scores are
equal and `b.pronunciation->id() > a.pronunciation->id()`.  Lattice mode
threads the loser's trace into the winner's sibling chain. -/
def recombineTwoHypotheses (shallCreateLattice : Bool) (a b : WordEndHypothesis) :
    WordEndHypothesis :=
  if b.score.total > a.score.total ∨
     (b.score.total = a.score.total ∧ b.pronunciation > a.pronunciation) then
    { b with
      history := a.history
      pronunciation := a.pronunciation
      endExit := a.endExit
      score := a.score
      -- a.trace->sibling = b.trace; b.trace = a.trace
      trace := if shallCreateLattice then a.trace ++ b.trace else a.trace }
  else
    if shallCreateLattice then
      -- a.trace->sibling = b.trace->sibling; b.trace->sibling = a.trace
      { b with trace := b.trace.take 1 ++ a.trace ++ b.trace.drop 1 }
    else b

/-- The non-mesh word-end recombination key: equality of LM history and
transit state (`WordEndHypothesisRecombinationMap`). -/
def wordEndRecombinationKey (w : WordEndHypothesis) : ℕ × StateId :=
  (w.history, w.transitState)

/-- The deduplicating scan of `SearchSpace::recombineWordEnds`, generic in
the recombination key (the hash map holds iterators into the compacted
output prefix; keys of stored entries are stable under
`recombineTwoHypotheses`). -/
def recombineWordEndsBy {κ : Type} [DecidableEq κ] (key : WordEndHypothesis → κ)
    (shallCreateLattice : Bool) :
    List WordEndHypothesis → List WordEndHypothesis → List WordEndHypothesis
  | [], out => out
  | inHyp :: rest, out =>
    match out.findIdx? (fun w => key w = key inHyp) with
    | some i =>
      match out.get? i with
      | some b =>
        recombineWordEndsBy key shallCreateLattice rest
          (out.set i (recombineTwoHypotheses shallCreateLattice inHyp b))
      | none => recombineWordEndsBy key shallCreateLattice rest out
    | none => recombineWordEndsBy key shallCreateLattice rest (out ++ [inHyp])

/-- `SearchSpace::recombineWordEnds`: in mesh-lattice mode hypotheses are
recombined by the coarser mesh key (`WordEndHypothesis::MeshEquality`,
modelled as an opaque key function: equal transit state plus a bounded
shared pronunciation suffix), otherwise by (history, transit state). -/
def recombineWordEnds (decodeMesh shallCreateLattice : Bool)
    (meshKey : WordEndHypothesis → ℕ) (l : List WordEndHypothesis) :
    List WordEndHypothesis :=
  if decodeMesh && shallCreateLattice then
    recombineWordEndsBy meshKey shallCreateLattice l []
  else
    recombineWordEndsBy wordEndRecombinationKey shallCreateLattice l []

/-! ## Sentence-end extraction (`SearchSpace::getSentenceEnd`) -/

/-- The collaborators and configuration consumed by `getSentenceEnd`:
network root data, the optional forced final coarticulation root, the LM's
suffix-lemma and sentence-end costs (functions of the history id), the
global score offset, and the trace items of live state hypotheses. -/
structure SentenceEndEnv where
  rootState : StateId
  ciRootState : StateId
  uncoarticulatedWordEndStates : List StateId
  forceRoot : Option StateId
  suffixLmScore : ℕ → Score
  sentenceEndScore : ℕ → Score
  globalScoreOffset : Score
  traceLmScore : TraceId → Score
  traceHistory : TraceId → ℕ

/-- The word-end filter of `getSentenceEnd`: with a forced final
coarticulation the transit state must match the forced root, otherwise the
transit must be an uncoarticulated root/word-end state. -/
def sentenceEndQualifies (env : SentenceEndEnv) (weh : WordEndHypothesis) : Bool :=
  match env.forceRoot with
  | some r => decide (weh.transitState = r)
  | none =>
    decide (weh.transitState = env.rootState) || decide (weh.transitState = env.ciRootState) ||
    env.uncoarticulatedWordEndStates.contains weh.transitState

/-- The sentence-end trace score built for a word-end hypothesis: the
hypothesis' score with the global offset on the acoustic part and the
configured suffix-lemma costs plus the LM sentence-end cost on the LM part. -/
def sentenceEndCandidate (env : SentenceEndEnv) (weh : WordEndHypothesis) : ScoreVector :=
  { acoustic := weh.score.acoustic + env.globalScoreOffset
    lm := weh.score.lm + env.suffixLmScore weh.history + env.sentenceEndScore weh.history }

/-- The sentence-end trace score built for an uncoarticulated-boundary state
hypothesis (second scan of `getSentenceEnd`); `off` is the owning instance's
`totalBackOffOffset`. -/
def sentenceEndBoundaryCandidate (env : SentenceEndEnv) (sh : StateHypothesis)
    (off : Score) : ScoreVector :=
  { acoustic := sh.score + env.globalScoreOffset - env.traceLmScore sh.trace - off
    lm := env.traceLmScore sh.trace + env.suffixLmScore (env.traceHistory sh.trace) +
          env.sentenceEndScore (env.traceHistory sh.trace) }

/-- One step of the word-end scan of `getSentenceEnd`: a qualifying
hypothesis replaces the best iff there is none yet or its score is strictly
smaller ("Make the selection deterministic if scores are equal"). -/
def sentenceEndStep (env : SentenceEndEnv)
    (best : Option ((WordEndHypothesis ⊕ StateHypothesis) × ScoreVector))
    (weh : WordEndHypothesis) :
    Option ((WordEndHypothesis ⊕ StateHypothesis) × ScoreVector) :=
  if sentenceEndQualifies env weh then
    let t := sentenceEndCandidate env weh
    match best with
    | none => some (Sum.inl weh, t)
    | some (bw, bs) => if bs.total > t.total then some (Sum.inl weh, t) else some (bw, bs)
  else best

/-- One step of the boundary-state scan of `getSentenceEnd`. -/
def sentenceEndBoundaryStep (env : SentenceEndEnv)
    (best : Option ((WordEndHypothesis ⊕ StateHypothesis) × ScoreVector))
    (she : StateHypothesis × Score) :
    Option ((WordEndHypothesis ⊕ StateHypothesis) × ScoreVector) :=
  let keep : Bool :=
    match env.forceRoot with
    | some r => decide (she.1.state = r)
    | none => env.uncoarticulatedWordEndStates.contains she.1.state
  if keep then
    let t := sentenceEndBoundaryCandidate env she.1 she.2
    match best with
    | none => some (Sum.inr she.1, t)
    | some (bw, bs) => if t.total < bs.total then some (Sum.inr she.1, t) else some (bw, bs)
  else best

/-- `SearchSpace::getSentenceEnd`: scans all live word-end hypotheses and,
when uncoarticulated-boundary tracking is enabled (the set of
uncoarticulated word-end states is non-empty), also all live state
hypotheses (paired with their instance's `totalBackOffOffset`); returns the
best qualifying candidate or `none` (the null trace reference).  Lattice
sibling threading does not influence the selection and is omitted. -/
def getSentenceEnd (env : SentenceEndEnv) (wehs : List WordEndHypothesis)
    (stateHyps : List (StateHypothesis × Score)) :
    Option ((WordEndHypothesis ⊕ StateHypothesis) × ScoreVector) :=
  let afterWordEnds := wehs.foldl (sentenceEndStep env) none
  if env.uncoarticulatedWordEndStates ≠ [] then
    stateHyps.foldl (sentenceEndBoundaryStep env) afterWordEnds
  else afterWordEnds

/-! ## Sparse LM lookahead (`SearchSpace::applyLookaheadInInstanceInternal`,
sparse branch) -/

/-- The collaborators of the sparse-lookahead loop: the sparse hash lookup
(`ContextLookahead::getScoreForLookAheadHashSparse` on the state's lookahead
hash id), the acoustic lookahead score, and the early-backoff flag. -/
structure SparseLookaheadEnv where
  lookupSparse : StateId → Option Score
  acousticLookAhead : StateId → Score
  earlyBackoff : Bool

/-- One iteration of the sparse-lookahead loop over a state hypothesis at
global index `i`: on hash miss the prospect is forced to the sentinel and
the hypothesis is either invalidated (early backoff) or shifted by the
instance's cached back-off score and queued for transfer into the back-off
instance; on hit the prospect is score + LM lookahead + acoustic lookahead. -/
def applyLookaheadSparseStep (env : SparseLookaheadEnv) (backOffScore : Score)
    (acc : List StateHypothesis × List ℕ) (i : ℕ) : List StateHypothesis × List ℕ :=
  match acc.1.get? i with
  | none => acc
  | some sh =>
    match env.lookupSparse sh.state with
    | none =>
      -- This state needs to transfer into the back-off network
      if env.earlyBackoff then
        (acc.1.set i { sh with prospect := scoreMax, score := scoreMax }, acc.2)
      else
        (acc.1.set i { sh with prospect := scoreMax, score := sh.score + backOffScore },
         acc.2 ++ [i])
    | some lmScore =>
      (acc.1.set i
        { sh with prospect := sh.score + lmScore + env.acousticLookAhead sh.state }, acc.2)

/-- The sparse-lookahead loop over the instance's slice
`[states.begin, states.end)` of `newStateHypotheses`; returns the updated
hypothesis array and the indices appended to the back-off instance's
`transfer` list. -/
def applyLookaheadSparse (env : SparseLookaheadEnv) (backOffScore : Score)
    (hyps : List StateHypothesis) (b e : ℕ) : List StateHypothesis × List ℕ :=
  (List.range' b (e - b)).foldl (applyLookaheadSparseStep env backOffScore) (hyps, [])

/-! ## Histogram pruning (`SearchSpace::quantileStateScore` and the
histogram branch of `SearchSpace::pruneAndAddScores`) -/

/-- The histogram bin of a prospect score for limits `[lower, lower + nBins·binSize)`.
Modelled from the spec: `Search/Histogram.hh` (the bounded-bin score
histogram) is not in this tree; scores are binned uniformly between the
limits, out-of-range scores clamp to the last bin. -/
def histogramBin (lower binSize : Score) (nBins : ℕ) (s : Score) : ℕ :=
  min (nBins - 1) (Int.toNat ⌊(s - lower) / binSize⌋)

/-- Number of hypotheses falling in bins `0 .. k-1`. -/
def histogramCountBelow (hyps : List StateHypothesis) (lower binSize : Score)
    (nBins k : ℕ) : ℕ :=
  (hyps.filter (fun h => histogramBin lower binSize nBins h.prospect < k)).length

/-- `SearchSpace::quantileStateScore(minScore, maxScore, nHyps)`.
Modelled from the spec: the bounded-bin approximate quantile — the largest
bin boundary below which at most `nHyps` hypotheses fall. -/
def quantileStateScore (hyps : List StateHypothesis) (minScore maxScore : Score)
    (nBins nHyps : ℕ) : Score :=
  let binSize := (maxScore - minScore) / nBins
  let K := ((List.range (nBins + 1)).filter
      (fun k => histogramCountBelow hyps minScore binSize nBins k ≤ nHyps)).foldl max 0
  minScore + binSize * K

/-- The beam predicate `AcousticPruning::prune` (SearchSpace.hh is not in
this tree).  Modelled from the spec: drop hypotheses whose prospect exceeds
`bestProspect + threshold`. -/
def acousticPruningPrune (bestProspect threshold : Score) (h : StateHypothesis) : Bool :=
  decide (h.prospect > bestProspect + threshold)

/-- The histogram-pruning branch of `SearchSpace::pruneAndAddScores`: when
the hypothesis count exceeds `acousticPruningLimit_`, the quantile of the
prospect histogram over `[bestProspect, bestProspect + acousticPruning]`
replaces the beam threshold. -/
def histogramPruning (hyps : List StateHypothesis) (bestProspect acousticPruning : Score)
    (nBins acousticPruningLimit : ℕ) : List StateHypothesis :=
  let acuThreshold :=
    quantileStateScore hyps bestProspect (bestProspect + acousticPruning) nBins
      acousticPruningLimit
  hyps.filter (fun h => !acousticPruningPrune bestProspect (acuThreshold - bestProspect) h)

/-- The quantile threshold used by `histogramPruning` (named for the
statements below). -/
def histogramPruningThreshold (hyps : List StateHypothesis)
    (bestProspect acousticPruning : Score) (nBins acousticPruningLimit : ℕ) : Score :=
  quantileStateScore hyps bestProspect (bestProspect + acousticPruning) nBins
    acousticPruningLimit

/-! ## Per-frame expansion bookkeeping (`SearchSpace::expandHmm`) and
pruning (`SearchSpace::pruneStates`) -/

/-- The `Search::Instance` bookkeeping consumed by `expandHmm` /
`pruneStates`: the contiguous range `[states.begin, states.end)` of its
state hypotheses, the inactivity counter and the `mayDeactivate` guard. -/
structure SInstance where
  statesBegin : ℕ
  statesEnd : ℕ
  inactive : ℕ
  mayDeactivate : Bool
deriving Repr, DecidableEq

/-- One recombination call made while expanding one instance; the network
walk that chooses the calls (`expandState`, transfer processing) is
abstracted as op lists, the recombination itself is the source functions
above. -/
inductive ExpandOp where
  | loop (hyp : StateHypothesis) (score : Score)
  | transition (hyp : StateHypothesis) (score : Score) (successor : StateId)
  | direct (hyp : StateHypothesis)
deriving Repr

/-- Dispatch of an expansion op to `activateOrUpdateStateHypothesis*`. -/
def applyExpandOp (s : RecombState) : ExpandOp → RecombState
  | .loop hyp score => activateOrUpdateStateHypothesisLoop s hyp score
  | .transition hyp score succ => activateOrUpdateStateHypothesisTransition s hyp score succ
  | .direct hyp => activateOrUpdateStateHypothesisDirectly s hyp

/-- Expansion of one instance inside `expandHmm`: `states.begin` (and the
recombination window base `currentTreeFirstNewStateHypothesis`) is set to
the current arena size, the instance's recombination calls run, and
`states.end` is set to the resulting arena size. -/
def expandHmmInstance (s : RecombState) (inst : SInstance) (ops : List ExpandOp) :
    RecombState × SInstance :=
  let b := s.newStateHypotheses.length
  let s1 := ops.foldl applyExpandOp { s with currentTreeFirstNewStateHypothesis := b }
  (s1, { inst with statesBegin := b, statesEnd := s1.newStateHypotheses.length })

/-- One iteration of the `expandHmm` instance loop. -/
def expandHmmStep (acc : RecombState × List SInstance)
    (io : SInstance × List ExpandOp) : RecombState × List SInstance :=
  (( expandHmmInstance acc.1 io.1 io.2).1, acc.2 ++ [(expandHmmInstance acc.1 io.1 io.2).2])

/-- `SearchSpace::expandHmm`: the per-frame expansion loop over all active
instances, starting from the empty `newStateHypotheses` arena.  Each
instance's calls are its op list; the per-instance lookahead application
only rewrites scores in place and is irrelevant to the range bookkeeping. -/
def expandHmm (recombArray : List ℕ) (instOps : List (SInstance × List ExpandOp)) :
    RecombState × List SInstance :=
  instOps.foldl expandHmmStep (⟨[], recombArray, 0⟩, [])

/-- `SearchSpace::eventuallyDeactivateTree`: an instance with active states
stays (resetting its inactivity counter); an empty one stays while its
inactivity counter is below the deletion latency; otherwise it is deleted. -/
def eventuallyDeactivateTree (latency : ℕ) (inst : SInstance) : Option SInstance :=
  if !inst.mayDeactivate then some inst
  else if inst.statesBegin ≠ inst.statesEnd then some { inst with inactive := 0 }
  else if inst.inactive < latency then some { inst with inactive := inst.inactive + 1 }
  else none

/-- One iteration of the `pruneStates` instance loop: filter the instance's
slice, rewrite its range to the compacted position, and keep or drop the
instance as `eventuallyDeactivateTree` decides. -/
def pruneStatesStep (prune : StateHypothesis → Bool) (latency : ℕ)
    (hyps : List StateHypothesis) (acc : List SInstance × List StateHypothesis)
    (inst : SInstance) : List SInstance × List StateHypothesis :=
  let survivors :=
    ((hyps.drop inst.statesBegin).take (inst.statesEnd - inst.statesBegin)).filter
      (fun h => !prune h)
  let inst' := { inst with
    statesBegin := acc.2.length
    statesEnd := acc.2.length + survivors.length }
  match eventuallyDeactivateTree latency inst' with
  | some kept => (acc.1 ++ [kept], acc.2 ++ survivors)
  | none => (acc.1, acc.2 ++ survivors)

/-- `SearchSpace::pruneStates`: compacting filter over each instance's slice
of `stateHypotheses`, rewriting `states.begin/end` to the compacted
positions and dropping instances that `eventuallyDeactivateTree` deletes. -/
def pruneStates (prune : StateHypothesis → Bool) (latency : ℕ)
    (instances : List SInstance) (hyps : List StateHypothesis) :
    List SInstance × List StateHypothesis :=
  instances.foldl (pruneStatesStep prune latency hyps) ([], [])

/-- The searched invariant: the instances' state ranges are consecutive
intervals starting at `k` and ending exactly at `total`. -/
def rangesChainFrom : ℕ → List SInstance → ℕ → Prop
  | k, [], total => k = total
  | k, inst :: rest, total =>
    inst.statesBegin = k ∧ k ≤ inst.statesEnd ∧ rangesChainFrom inst.statesEnd rest total

/-- Active instances partition the live hypothesis array: ranges are
contiguous, disjoint and cover `[0, total)`. -/
def rangesPartition (instances : List SInstance) (total : ℕ) : Prop :=
  rangesChainFrom 0 instances total

/-! ## Back-off instances (`SearchSpace::getBackOffInstance`) -/

/-- A `Search::Instance` with its back-off link (`backOffInstance`); the
lookahead history of the back-off LM collaborator is modelled as its token
list, so `Lm::BackingOffLm::historyLenght` is the list length. -/
inductive BInstance where
  | base (lookAheadHistory : List ℕ) (backOffScore : Score)
  | linked (lookAheadHistory : List ℕ) (backOffScore : Score) (child : BInstance)
deriving Repr

/-- The instance's look-ahead history. -/
def BInstance.lookAheadHistory : BInstance → List ℕ
  | .base h _ => h
  | .linked h _ _ => h

/-- The instance's `backOffInstance` link. -/
def BInstance.backOffInstance : BInstance → Option BInstance
  | .base _ _ => none
  | .linked _ _ c => some c

/-- `Lm::BackingOffLm::reducedHistory(h, n)`: the `n` most recent tokens of
the history (modelled from the LM collaborator interface; the source
verifies `historyLenght(reduced) == length - 1` after the call). -/
def reducedHistory (h : List ℕ) (n : ℕ) : List ℕ := h.drop (h.length - n)

/-- `SearchSpace::getBackOffInstance`: returns the existing back-off
instance if present; returns null for an empty (unigram) look-ahead
history; otherwise creates the back-off instance for the one-order-shorter
history (`new Instance(key, instance)` links it and the parent's
`backOffScore` is set from the back-off model).  Returns the resulting link
and the updated parent. -/
def getBackOffInstance (lmLookahead : Bool) (backOffScores : List ℕ → Score)
    (inst : BInstance) : Option BInstance × BInstance :=
  match inst.backOffInstance with
  | some b => (some b, inst)
  | none =>
    if !lmLookahead then (none, inst)
    else
      let length := inst.lookAheadHistory.length
      if length = 0 then (none, inst)
      else
        let child := BInstance.base (reducedHistory inst.lookAheadHistory (length - 1)) 0
        (some child,
         BInstance.linked inst.lookAheadHistory (backOffScores inst.lookAheadHistory) child)

/-- Well-formedness of the back-off links: every existing `backOffInstance`
has a look-ahead history exactly one shorter (the invariant
`getBackOffInstance` establishes, checked by the source's `verify`). -/
def BInstance.wf : BInstance → Prop
  | .base _ _ => True
  | .linked h _ c => c.lookAheadHistory.length + 1 = h.length ∧ c.wf

/-- Following `backOffInstance` links (via `getBackOffInstance`) for `k`
hops. -/
def followBackOffChain (backOffScores : List ℕ → Score) :
    ℕ → BInstance → Option BInstance
  | 0, inst => some inst
  | k + 1, inst =>
    match (getBackOffInstance true backOffScores inst).1 with
    | some c => followBackOffChain backOffScores k c
    | none => none

/-! ## Word-end extraction scores (`SearchSpace::findWordEndsInternal`) -/

/-- The score vector of an `EarlyWordEndHypothesis` before the LM word score
is added (`findWordEndsInternal`, single-label case): the acoustic part is
the hypothesis score minus the trace's LM part and the instance's total
back-off offset, plus the exit transition penalty of the state's descriptor;
the LM part is carried over from the trace. -/
def earlyWordEndScore (exitPenalty traceLm totalBackOffOffset : Score)
    (hyp : StateHypothesis) : ScoreVector :=
  { acoustic := hyp.score - traceLm - totalBackOffOffset + exitPenalty
    lm := traceLm }

/-! ## The concrete loop-loop-forward scenario -/

/-- The network of the scenario: state 0 loops (cost 1) and forwards
(cost 2) to the exit-labeled state 1; skips are immediately impossible. -/
def scenarioNet (exitPenalty : Score) : Network where
  succ := fun s => if s = 0 then .single 1 else .irregular []
  tdp := fun s =>
    if s = 0 then { loop := 1, forward := 2, skip := scoreMax, exit := 0 }
    else { loop := scoreMax, forward := scoreMax, skip := scoreMax, exit := exitPenalty }
  secondOrder := fun _ => (0, 0)

instance : Inhabited StateHypothesis := ⟨⟨0, 0, 0, 0⟩⟩

/-- Application of a state expansion's emitted updates to the recombination
state (each `(target, score)` pair is one `activateOrUpdateStateHypothesis*`
call; the loop call targets the hypothesis' own state, so the transition
form subsumes it). -/
def applyUpdates (s : RecombState) (hyp : StateHypothesis) (us : List Update) : RecombState :=
  us.foldl (fun s u => activateOrUpdateStateHypothesisTransition s hyp u.2 u.1) s

/-- One search frame of the scenario on a single-state-hypothesis instance:
`expandState` over the previous frame's hypothesis, with the double-buffered
arrays swapped (fresh `newStateHypotheses`, recombination array carried
over, window base 0). -/
def scenarioFrame (net : Network) (recombArray : List ℕ) (hyp : StateHypothesis) :
    RecombState :=
  applyUpdates ⟨[], recombArray, 0⟩ hyp (expandState net false hyp)

/-- Frame 1 of the scenario: the root hypothesis with score 0 expanded once
(recombination array initially clear). -/
def scenarioS1 (exitPenalty : Score) : RecombState :=
  scenarioFrame (scenarioNet exitPenalty) (List.replicate 2 0)
    { state := 0, score := 0, prospect := 0, trace := 0 }

/-- Frame 2 of the scenario: the looped hypothesis at state 0 expanded
again. -/
def scenarioS2 (exitPenalty : Score) : RecombState :=
  scenarioFrame (scenarioNet exitPenalty)
    (scenarioS1 exitPenalty).stateHypothesisRecombinationArray
    ((scenarioS1 exitPenalty).newStateHypotheses.getD 0 default)

/-- Frame 3 of the scenario: the twice-looped hypothesis at state 0 expanded
once more, producing the forward hypothesis in the exit-labeled state 1. -/
def scenarioS3 (exitPenalty : Score) : RecombState :=
  scenarioFrame (scenarioNet exitPenalty)
    (scenarioS2 exitPenalty).stateHypothesisRecombinationArray
    ((scenarioS2 exitPenalty).newStateHypotheses.getD 0 default)

/-- The full scenario: from the root hypothesis with score 0, expand three
frames (two loops at state 0, then take the forward transition into the
exit state 1), and extract the early word-end score at the exit state; the
trace LM score and the back-off offset are zero in this scenario. -/
def scenarioWordEndScore (exitPenalty : Score) : ScoreVector :=
  earlyWordEndScore
    ((scenarioNet exitPenalty).tdp
      ((scenarioS3 exitPenalty).newStateHypotheses.getD 1 default).state).exit 0 0
    ((scenarioS3 exitPenalty).newStateHypotheses.getD 1 default)

/-- A minimal concrete network: state 0 has the single-successor encoding
(successor 1), loop cost 1 and forward cost 2, skips disabled by a
`scoreMax` skip penalty, and an empty second-order table. -/
def c6Net : Network :=
  { succ := fun s => if s = 0 then SuccEncoding.single 1 else SuccEncoding.irregular []
  , tdp := fun _ => { loop := 1, forward := 2, skip := scoreMax, exit := 0 }
  , secondOrder := fun _ => (0, 0) }

/-! ## Theorems -/

/-- The update branch (recombination hit) of
`activateOrUpdateStateHypothesisLoop`, in closed form. -/
theorem activateOrUpdateStateHypothesisLoop_hit (s : RecombState) (hyp : StateHypothesis)
    (score : Score) (sh : StateHypothesis)
    (hmiss : recombinationMiss s (s.stateHypothesisRecombinationArray.getD hyp.state 0)
        hyp.state = false)
    (hget : s.newStateHypotheses.get?
        (s.stateHypothesisRecombinationArray.getD hyp.state 0) = some sh) :
    activateOrUpdateStateHypothesisLoop s hyp score =
      if sh.score ≥ score then
        { s with newStateHypotheses := s.newStateHypotheses.set (s.stateHypothesisRecombinationArray.getD hyp.state 0) { sh with score := score, trace := hyp.trace } }
      else s := by
  unfold activateOrUpdateStateHypothesisLoop
  simp only [hmiss, Bool.false_eq_true, if_false, hget]

/-- The update branch (recombination hit) of
`activateOrUpdateStateHypothesisTransition`, in closed form. -/
theorem activateOrUpdateStateHypothesisTransition_hit (s : RecombState)
    (hyp : StateHypothesis) (score : Score) (successorState : StateId) (sh : StateHypothesis)
    (hmiss : recombinationMiss s
        (s.stateHypothesisRecombinationArray.getD successorState 0) successorState = false)
    (hget : s.newStateHypotheses.get?
        (s.stateHypothesisRecombinationArray.getD successorState 0) = some sh) :
    activateOrUpdateStateHypothesisTransition s hyp score successorState =
      if sh.score ≥ score then
        { s with newStateHypotheses := s.newStateHypotheses.set (s.stateHypothesisRecombinationArray.getD successorState 0) { sh with score := score, trace := hyp.trace } }
      else s := by
  unfold activateOrUpdateStateHypothesisTransition
  simp only [hmiss, Bool.false_eq_true, if_false, hget]

/-- **C1** (amended): when a second state hypothesis is recombined onto the
same target network state within one instance's expansion (via
`activateOrUpdateStateHypothesisLoop` or
`activateOrUpdateStateHypothesisTransition`), only the lower-scoring
hypothesis survives (the stored entry's score becomes the minimum and no new
entry is created), and the stored trace is overwritten exactly when the
incoming score is less than or equal to the stored score — so on exact score
ties the incoming (most recently inserted) hypothesis' trace overwrites the
stored one. -/
theorem stateHypothesis_recombination_keeps_minimum (s : RecombState)
    (hyp : StateHypothesis) (score : Score) (successorState : StateId)
    (sh sh₂ : StateHypothesis)
    (hmiss : recombinationMiss s (s.stateHypothesisRecombinationArray.getD hyp.state 0)
        hyp.state = false)
    (hget : s.newStateHypotheses.get?
        (s.stateHypothesisRecombinationArray.getD hyp.state 0) = some sh)
    (hmiss₂ : recombinationMiss s
        (s.stateHypothesisRecombinationArray.getD successorState 0) successorState = false)
    (hget₂ : s.newStateHypotheses.get?
        (s.stateHypothesisRecombinationArray.getD successorState 0) = some sh₂) :
    ((activateOrUpdateStateHypothesisLoop s hyp score).newStateHypotheses.get?
        (s.stateHypothesisRecombinationArray.getD hyp.state 0) =
      some { sh with score := min sh.score score,
                     trace := if score ≤ sh.score then hyp.trace else sh.trace } ∧
     (activateOrUpdateStateHypothesisLoop s hyp score).newStateHypotheses.length =
       s.newStateHypotheses.length) ∧
    ((activateOrUpdateStateHypothesisTransition s hyp score
        successorState).newStateHypotheses.get?
        (s.stateHypothesisRecombinationArray.getD successorState 0) =
      some { sh₂ with score := min sh₂.score score,
                      trace := if score ≤ sh₂.score then hyp.trace else sh₂.trace } ∧
     (activateOrUpdateStateHypothesisTransition s hyp score
        successorState).newStateHypotheses.length = s.newStateHypotheses.length) := by
  rw [activateOrUpdateStateHypothesisLoop_hit s hyp score sh hmiss hget,
    activateOrUpdateStateHypothesisTransition_hit s hyp score successorState sh₂ hmiss₂ hget₂]
  have hlt := List.get?_eq_some.mp hget
  have hlt₂ := List.get?_eq_some.mp hget₂
  constructor
  · by_cases hc : sh.score ≥ score
    · simp only [hc, if_pos]
      rw [List.get?_set_eq_of_lt _ hlt.1, List.length_set]
      simp [min_eq_right hc, hc]
    · simp only [hc, if_neg, not_false_iff]
      rw [hget]
      have hlt' : sh.score < score := lt_of_not_ge hc
      simp [min_eq_left (le_of_lt hlt'), not_le.mpr hlt']
  · by_cases hc : sh₂.score ≥ score
    · simp only [hc, if_pos]
      rw [List.get?_set_eq_of_lt _ hlt₂.1, List.length_set]
      simp [min_eq_right hc, hc]
    · simp only [hc, if_neg, not_false_iff]
      rw [hget₂]
      have hlt' : sh₂.score < score := lt_of_not_ge hc
      simp [min_eq_left (le_of_lt hlt'), not_le.mpr hlt']

/-- **C1** witness: the recombination theorem applied to a concrete state
(one stored hypothesis for state 0 with score 2 and trace 1, incoming score
1 with trace 2): the stored entry becomes score 1, trace 2, without a new
entry being created. -/
theorem stateHypothesis_recombination_keeps_minimum_witness :
    ((activateOrUpdateStateHypothesisLoop ⟨[⟨0, 2, 0, 1⟩], [0], 0⟩ ⟨0, 5, 0, 2⟩
        1).newStateHypotheses.get?
        ((⟨[⟨0, 2, 0, 1⟩], [0], 0⟩ :
          RecombState).stateHypothesisRecombinationArray.getD (0 : ℕ) 0) =
      some { (⟨0, 2, 0, 1⟩ : StateHypothesis) with score := min 2 1, trace := if (1 : Score) ≤ 2 then 2 else 1 } ∧
     (activateOrUpdateStateHypothesisLoop ⟨[⟨0, 2, 0, 1⟩], [0], 0⟩ ⟨0, 5, 0, 2⟩
        1).newStateHypotheses.length = 1) ∧
    ((activateOrUpdateStateHypothesisTransition ⟨[⟨0, 2, 0, 1⟩], [0], 0⟩ ⟨0, 5, 0, 2⟩ 1
        0).newStateHypotheses.get?
        ((⟨[⟨0, 2, 0, 1⟩], [0], 0⟩ :
          RecombState).stateHypothesisRecombinationArray.getD (0 : ℕ) 0) =
      some { (⟨0, 2, 0, 1⟩ : StateHypothesis) with score := min 2 1, trace := if (1 : Score) ≤ 2 then 2 else 1 } ∧
     (activateOrUpdateStateHypothesisTransition ⟨[⟨0, 2, 0, 1⟩], [0], 0⟩ ⟨0, 5, 0, 2⟩ 1
        0).newStateHypotheses.length = 1) :=
  stateHypothesis_recombination_keeps_minimum ⟨[⟨0, 2, 0, 1⟩], [0], 0⟩ ⟨0, 5, 0, 2⟩ 1 0
    ⟨0, 2, 0, 1⟩ ⟨0, 2, 0, 1⟩ (by decide) (by decide) (by decide) (by decide)

/-- **C1** counterexample: on an exact score tie the first-inserted
hypothesis' trace is *not* kept: a stored hypothesis for state 0 with score
2 and trace 1, updated by an equal-scoring hypothesis with trace 2, ends up
carrying trace 2. -/
theorem stateHypothesis_recombination_tie_counterexample :
    ((activateOrUpdateStateHypothesisLoop
        (activateOrUpdateStateHypothesisLoop ⟨[], [0], 0⟩ ⟨0, 5, 0, 1⟩ 2)
        ⟨0, 5, 0, 2⟩ 2).newStateHypotheses.getD 0 default).trace = 2 ∧
    (2 : TraceId) ≠ 1 := by decide

/-- **C10** (amended): word-end recombination is deterministic for a fixed
insertion order, but score ties are broken by pronunciation id, not
first-wins: with equal scores the hypothesis with the smaller pronunciation
id survives with its fields and primary trace, and the first-inserted
(stored) hypothesis survives only when the pronunciation ids are also
equal. -/
theorem recombineTwoHypotheses_tie_by_pronunciation (shallCreateLattice : Bool)
    (a b : WordEndHypothesis) (htie : b.score.total = a.score.total)
    (ha : a.trace ≠ []) (hb : b.trace ≠ []) :
    (a.pronunciation < b.pronunciation →
       (recombineTwoHypotheses shallCreateLattice a b).pronunciation = a.pronunciation ∧
       (recombineTwoHypotheses shallCreateLattice a b).score = a.score ∧
       (recombineTwoHypotheses shallCreateLattice a b).history = a.history ∧
       (recombineTwoHypotheses shallCreateLattice a b).trace.head? = a.trace.head?) ∧
    (b.pronunciation ≤ a.pronunciation →
       (recombineTwoHypotheses shallCreateLattice a b).pronunciation = b.pronunciation ∧
       (recombineTwoHypotheses shallCreateLattice a b).score = b.score ∧
       (recombineTwoHypotheses shallCreateLattice a b).history = b.history ∧
       (recombineTwoHypotheses shallCreateLattice a b).trace.head? = b.trace.head?) := by
  have hnotgt : ¬ b.score.total > a.score.total := by rw [htie]; exact lt_irrefl _
  constructor
  · intro hlt
    have hcond : b.score.total > a.score.total ∨
        (b.score.total = a.score.total ∧ b.pronunciation > a.pronunciation) :=
      Or.inr ⟨htie, hlt⟩
    simp only [recombineTwoHypotheses, if_pos hcond]
    cases shallCreateLattice with
    | false => simp
    | true =>
      cases hx : a.trace with
      | nil => exact absurd hx ha
      | cons x xs => simp [hx]
  · intro hle
    have hcond : ¬ (b.score.total > a.score.total ∨
        (b.score.total = a.score.total ∧ b.pronunciation > a.pronunciation)) := by
      rintro (h | ⟨-, h⟩)
      · exact hnotgt h
      · exact absurd hle (not_le.mpr h)
    simp only [recombineTwoHypotheses, if_neg hcond]
    cases shallCreateLattice with
    | false => simp
    | true =>
      cases hy : b.trace with
      | nil => exact absurd hy hb
      | cons y ys => simp [hy]

/-- **C10** witness: the tie-resolution theorem applied to two concrete
equal-scoring word-end hypotheses with pronunciation ids 3 (incoming) and 5
(stored): the incoming one survives. -/
theorem recombineTwoHypotheses_tie_by_pronunciation_witness :
    ((3 : ℕ) < 5 →
       (recombineTwoHypotheses false ⟨10, 0, 3, 3, 0, ⟨1, 1⟩, [7]⟩
           ⟨10, 0, 3, 5, 0, ⟨2, 0⟩, [9]⟩).pronunciation = 3 ∧
       (recombineTwoHypotheses false ⟨10, 0, 3, 3, 0, ⟨1, 1⟩, [7]⟩
           ⟨10, 0, 3, 5, 0, ⟨2, 0⟩, [9]⟩).score = ⟨1, 1⟩ ∧
       (recombineTwoHypotheses false ⟨10, 0, 3, 3, 0, ⟨1, 1⟩, [7]⟩
           ⟨10, 0, 3, 5, 0, ⟨2, 0⟩, [9]⟩).history = 10 ∧
       (recombineTwoHypotheses false ⟨10, 0, 3, 3, 0, ⟨1, 1⟩, [7]⟩
           ⟨10, 0, 3, 5, 0, ⟨2, 0⟩, [9]⟩).trace.head? = ([7] : List TraceId).head?) ∧
    ((5 : ℕ) ≤ 3 →
       (recombineTwoHypotheses false ⟨10, 0, 3, 3, 0, ⟨1, 1⟩, [7]⟩
           ⟨10, 0, 3, 5, 0, ⟨2, 0⟩, [9]⟩).pronunciation = 5 ∧
       (recombineTwoHypotheses false ⟨10, 0, 3, 3, 0, ⟨1, 1⟩, [7]⟩
           ⟨10, 0, 3, 5, 0, ⟨2, 0⟩, [9]⟩).score = ⟨2, 0⟩ ∧
       (recombineTwoHypotheses false ⟨10, 0, 3, 3, 0, ⟨1, 1⟩, [7]⟩
           ⟨10, 0, 3, 5, 0, ⟨2, 0⟩, [9]⟩).history = 10 ∧
       (recombineTwoHypotheses false ⟨10, 0, 3, 3, 0, ⟨1, 1⟩, [7]⟩
           ⟨10, 0, 3, 5, 0, ⟨2, 0⟩, [9]⟩).trace.head? = ([9] : List TraceId).head?) :=
  recombineTwoHypotheses_tie_by_pronunciation false
    ⟨10, 0, 3, 3, 0, ⟨1, 1⟩, [7]⟩ ⟨10, 0, 3, 5, 0, ⟨2, 0⟩, [9]⟩
    (by norm_num [ScoreVector.total]) (by decide) (by decide)

/-- **C10** counterexample: two word-end hypotheses with the same
(history, transit-state) key and exactly equal scores, first-inserted with
pronunciation id 5, incoming with pronunciation id 3: the surviving
hypothesis is the *incoming* one (pronunciation 3, trace 7), not the
first-inserted. -/
theorem recombineWordEnds_tie_counterexample :
    (recombineWordEnds false false (fun _ => 0)
        [⟨10, 0, 3, 5, 0, ⟨2, 0⟩, [9]⟩, ⟨10, 0, 3, 3, 0, ⟨1, 1⟩, [7]⟩]).map
        WordEndHypothesis.pronunciation = [3] ∧
    (recombineWordEnds false false (fun _ => 0)
        [⟨10, 0, 3, 5, 0, ⟨2, 0⟩, [9]⟩, ⟨10, 0, 3, 3, 0, ⟨1, 1⟩, [7]⟩]).map
        WordEndHypothesis.trace = [[7]] ∧
    (3 : ℕ) ≠ 5 := by
  refine ⟨?_, ?_, by decide⟩ <;>
    norm_num [recombineWordEnds, recombineWordEndsBy, recombineTwoHypotheses,
      wordEndRecombinationKey, ScoreVector.total, List.findIdx?_cons]

/-- A sparse-lookahead iteration at another index neither touches index `i`
of the hypothesis array nor changes whether `i` is queued for transfer. -/
theorem applyLookaheadSparseStep_preserves (env : SparseLookaheadEnv) (off : Score)
    (i j : ℕ) (hne : j ≠ i) (acc : List StateHypothesis × List ℕ) :
    ((applyLookaheadSparseStep env off acc j).1.get? i = acc.1.get? i) ∧
    (i ∈ (applyLookaheadSparseStep env off acc j).2 ↔ i ∈ acc.2) := by
  unfold applyLookaheadSparseStep
  cases hj : acc.1.get? j with
  | none => exact ⟨rfl, Iff.rfl⟩
  | some sh =>
    simp only [hj]
    cases hl : env.lookupSparse sh.state with
    | none =>
      simp only [hl]
      cases he : env.earlyBackoff with
      | true => simp [List.getElem?_set_ne hne]
      | false =>
        constructor
        · simp [List.getElem?_set_ne hne]
        · simp [List.mem_append, hne.symm]
    | some lmScore =>
      simp only [hl]
      simp [List.getElem?_set_ne hne]

/-- Folding sparse-lookahead iterations over indices avoiding `i` preserves
index `i` and its transfer status. -/
theorem applyLookaheadSparse_fold_preserves (env : SparseLookaheadEnv) (off : Score)
    (i : ℕ) :
    ∀ (l : List ℕ), i ∉ l → ∀ acc,
      ((l.foldl (applyLookaheadSparseStep env off) acc).1.get? i = acc.1.get? i) ∧
      (i ∈ (l.foldl (applyLookaheadSparseStep env off) acc).2 ↔ i ∈ acc.2) := by
  intro l
  induction l with
  | nil => intro _ acc; exact ⟨rfl, Iff.rfl⟩
  | cons j rest ih =>
    intro hmem acc
    have hne : j ≠ i := fun h => hmem (h ▸ List.mem_cons_self j rest)
    have hrest : i ∉ rest := fun h => hmem (List.mem_cons_of_mem j h)
    have hstep := applyLookaheadSparseStep_preserves env off i j hne acc
    have hih := ih hrest (applyLookaheadSparseStep env off acc j)
    exact ⟨hih.1.trans hstep.1, hih.2.trans hstep.2⟩

/-- **C2**: in the sparse-lookahead loop, every state hypothesis whose
sparse hash lookup fails gets its prospect forced to the `F32_MAX` sentinel;
with early-backoff enabled its raw score is also set to the sentinel and it
is not queued for transfer, while without early-backoff its raw score is
shifted by the instance's cached back-off score and its index is appended to
the back-off instance's transfer list. -/
theorem applyLookaheadSparse_hash_miss (env : SparseLookaheadEnv) (off : Score)
    (hyps : List StateHypothesis) (b e i : ℕ) (sh : StateHypothesis)
    (hb : b ≤ i) (he : i < e) (hget : hyps.get? i = some sh)
    (hfail : env.lookupSparse sh.state = none) :
    ((applyLookaheadSparse env off hyps b e).1.get? i =
       some { sh with prospect := scoreMax,
                      score := if env.earlyBackoff then scoreMax else sh.score + off }) ∧
    (i ∈ (applyLookaheadSparse env off hyps b e).2 ↔ env.earlyBackoff = false) := by
  have hsplit : List.range' b (e - b) =
      List.range' b (i - b) ++ i :: List.range' (i + 1) (e - i - 1) := by
    have h1 := List.range'_append b (i - b) (e - i) 1
    have h2 := List.range'_succ i (e - i - 1) 1
    have hbi : b + 1 * (i - b) = i := by omega
    have hei : (e - i - 1) + 1 = e - i := by omega
    have heb : (e - i) + (i - b) = e - b := by omega
    rw [hbi] at h1
    rw [hei] at h2
    rw [← heb, ← h1, h2]
  unfold applyLookaheadSparse
  rw [hsplit, List.foldl_append]
  have hpre : i ∉ List.range' b (i - b) := by
    intro hmem
    have := List.mem_range'_1.mp hmem
    omega
  have hA := applyLookaheadSparse_fold_preserves env off i (List.range' b (i - b))
    hpre (hyps, [])
  set accA := (List.range' b (i - b)).foldl (applyLookaheadSparseStep env off) (hyps, [])
    with haccA
  have hgetA : accA.1.get? i = some sh := by rw [hA.1]; exact hget
  have hmemA : i ∉ accA.2 := by
    intro h
    exact absurd (hA.2.mp h) (List.not_mem_nil i)
  have hiltA : i < accA.1.length := (List.get?_eq_some.mp hgetA).1
  rw [List.foldl_cons]
  have hpost : i ∉ List.range' (i + 1) (e - i - 1) := by
    intro hmem
    have := List.mem_range'_1.mp hmem
    omega
  have hstep : applyLookaheadSparseStep env off accA i =
      (accA.1.set i { sh with prospect := scoreMax, score := if env.earlyBackoff then scoreMax else sh.score + off },
       if env.earlyBackoff then accA.2 else accA.2 ++ [i]) := by
    unfold applyLookaheadSparseStep
    simp only [hgetA, hfail]
    cases henv : env.earlyBackoff <;> simp [henv]
  rw [hstep]
  cases henv : env.earlyBackoff with
  | true =>
    simp only [henv, if_true]
    have hB := applyLookaheadSparse_fold_preserves env off i
      (List.range' (i + 1) (e - i - 1)) hpost
      (accA.1.set i { sh with prospect := scoreMax, score := scoreMax }, accA.2)
    constructor
    · rw [hB.1]
      exact List.get?_set_eq_of_lt _ hiltA
    · constructor
      · intro h
        exact absurd (hB.2.mp h) hmemA
      · intro h
        exact absurd h (by simp [henv])
  | false =>
    simp only [henv, Bool.false_eq_true, if_false]
    have hB := applyLookaheadSparse_fold_preserves env off i
      (List.range' (i + 1) (e - i - 1)) hpost
      (accA.1.set i { sh with prospect := scoreMax, score := sh.score + off }, accA.2 ++ [i])
    constructor
    · rw [hB.1]
      exact List.get?_set_eq_of_lt _ hiltA
    · constructor
      · intro _
        trivial
      · intro _
        exact hB.2.mpr (List.mem_append_right _ (List.mem_singleton_self i))

/-- **C2** witness: the sparse-miss theorem applied to one concrete
hypothesis (state 7, score 1) whose lookup fails, without early backoff and
with back-off score 3: prospect becomes the sentinel, the score becomes
1 + 3, and index 0 is queued for transfer. -/
theorem applyLookaheadSparse_hash_miss_witness :
    ((applyLookaheadSparse ⟨fun _ => none, fun _ => 0, false⟩ 3
        [⟨7, 1, 0, 0⟩] 0 1).1.get? 0 = some ⟨7, 1 + 3, scoreMax, 0⟩) ∧
    (0 ∈ (applyLookaheadSparse ⟨fun _ => none, fun _ => 0, false⟩ 3
        [⟨7, 1, 0, 0⟩] 0 1).2 ↔ false = false) :=
  applyLookaheadSparse_hash_miss ⟨fun _ => none, fun _ => 0, false⟩ 3
    [⟨7, 1, 0, 0⟩] 0 1 0 ⟨7, 1, 0, 0⟩ (by decide) (by decide) rfl rfl

/-- The deduplicating scan leaves a list with pairwise-distinct keys
unchanged (generic in the recombination key). -/
theorem recombineWordEndsBy_pairwise_distinct {κ : Type} [DecidableEq κ]
    (key : WordEndHypothesis → κ) (shallCreateLattice : Bool) :
    ∀ (l out : List WordEndHypothesis),
      (out ++ l).Pairwise (fun x y => key x ≠ key y) →
      recombineWordEndsBy key shallCreateLattice l out = out ++ l := by
  intro l
  induction l with
  | nil =>
    intro out _
    simp [recombineWordEndsBy]
  | cons inHyp rest ih =>
    intro out h
    have hne : ∀ w ∈ out, key w ≠ key inHyp := by
      intro w hw
      have := (List.pairwise_append.mp h).2.2 w hw inHyp (List.mem_cons_self _ _)
      exact this
    have hfind : out.findIdx? (fun w => key w = key inHyp) = none := by
      rw [List.findIdx?_eq_none_iff]
      intro w hw
      simpa using hne w hw
    rw [recombineWordEndsBy]
    simp only [hfind]
    rw [ih (out ++ [inHyp]) (by simpa using h)]
    simp

/-- **C9**: `recombineWordEnds` is idempotent: on a word-end list already
containing no two hypotheses with an equal (history, transit-state) key — or
an equal mesh key in mesh-lattice mode — it returns the list unchanged (same
hypotheses, same order, same traces). -/
theorem recombineWordEnds_idempotent (decodeMesh shallCreateLattice : Bool)
    (meshKey : WordEndHypothesis → ℕ) (l : List WordEndHypothesis)
    (h : if decodeMesh && shallCreateLattice then
           l.Pairwise (fun x y => meshKey x ≠ meshKey y)
         else
           l.Pairwise (fun x y =>
             wordEndRecombinationKey x ≠ wordEndRecombinationKey y)) :
    recombineWordEnds decodeMesh shallCreateLattice meshKey l = l := by
  unfold recombineWordEnds
  cases hdm : decodeMesh && shallCreateLattice with
  | true =>
    rw [hdm] at h
    simp only [if_true] at h ⊢
    exact recombineWordEndsBy_pairwise_distinct meshKey shallCreateLattice l []
      (by simpa using h)
  | false =>
    rw [hdm] at h
    simp only [Bool.false_eq_true, if_false] at h ⊢
    exact recombineWordEndsBy_pairwise_distinct wordEndRecombinationKey shallCreateLattice
      l [] (by simpa using h)

/-- **C9** witness: recombination of two already-distinct word-end
hypotheses (histories 1 and 2, same transit state) is a no-op. -/
theorem recombineWordEnds_idempotent_witness :
    recombineWordEnds false false (fun _ => 0)
      [⟨1, 0, 4, 0, 0, ⟨0, 0⟩, [1]⟩, ⟨2, 0, 4, 0, 0, ⟨0, 0⟩, [2]⟩] =
    [⟨1, 0, 4, 0, 0, ⟨0, 0⟩, [1]⟩, ⟨2, 0, 4, 0, 0, ⟨0, 0⟩, [2]⟩] :=
  recombineWordEnds_idempotent false false (fun _ => 0)
    [⟨1, 0, 4, 0, 0, ⟨0, 0⟩, [1]⟩, ⟨2, 0, 4, 0, 0, ⟨0, 0⟩, [2]⟩]
    (by simp [wordEndRecombinationKey])

/-- **C5**: `getBackOffInstance` returns a null pointer exactly for an empty
(unigram) look-ahead history; otherwise the returned back-off instance's
look-ahead history is exactly one shorter than the parent's (and its links
remain well-formed); consequently following `backOffInstance` links from any
instance whose history length is at most `maxHistory` reaches history length
0 in at most `maxHistory` hops. -/
theorem getBackOffInstance_chain (backOffScores : List ℕ → Score) :
    (∀ inst : BInstance, inst.wf → inst.lookAheadHistory.length = 0 →
       (getBackOffInstance true backOffScores inst).1 = none) ∧
    (∀ (inst c : BInstance), inst.wf →
       (getBackOffInstance true backOffScores inst).1 = some c →
       c.lookAheadHistory.length + 1 = inst.lookAheadHistory.length ∧ c.wf) ∧
    (∀ (maxHistory : ℕ) (inst : BInstance), inst.wf →
       inst.lookAheadHistory.length ≤ maxHistory →
       ∃ k ≤ maxHistory, ∃ last, followBackOffChain backOffScores k inst = some last ∧
         last.lookAheadHistory.length = 0) := by
  have hnone : ∀ inst : BInstance, inst.wf → inst.lookAheadHistory.length = 0 →
      (getBackOffInstance true backOffScores inst).1 = none := by
    intro inst hwf hlen
    cases inst with
    | base h s =>
      simp only [getBackOffInstance, BInstance.backOffInstance, Bool.not_true,
        Bool.false_eq_true, if_false]
      simp [BInstance.lookAheadHistory] at hlen ⊢
      simp [hlen]
    | linked h s c =>
      exact absurd hlen (by
        have := hwf.1
        simp only [BInstance.lookAheadHistory] at this ⊢
        omega)
  have hsome : ∀ (inst c : BInstance), inst.wf →
      (getBackOffInstance true backOffScores inst).1 = some c →
      c.lookAheadHistory.length + 1 = inst.lookAheadHistory.length ∧ c.wf := by
    intro inst c hwf hres
    cases inst with
    | linked h s child =>
      simp only [getBackOffInstance, BInstance.backOffInstance, Option.some.injEq] at hres
      subst hres
      exact ⟨hwf.1, hwf.2⟩
    | base h s =>
      simp only [getBackOffInstance, BInstance.backOffInstance, Bool.not_true,
        Bool.false_eq_true, if_false, BInstance.lookAheadHistory] at hres
      by_cases hlen : h.length = 0
      · simp [hlen] at hres
      · simp only [hlen, if_false] at hres
        rw [Option.some.injEq] at hres
        subst hres
        constructor
        · simp only [BInstance.lookAheadHistory, reducedHistory, List.length_drop]
          omega
        · exact trivial
  refine ⟨hnone, hsome, ?_⟩
  intro maxHistory
  induction maxHistory with
  | zero =>
    intro inst hwf hlen
    exact ⟨0, le_refl 0, inst, rfl, Nat.le_zero.mp hlen⟩
  | succ m ih =>
    intro inst hwf hlen
    by_cases hz : inst.lookAheadHistory.length = 0
    · exact ⟨0, Nat.zero_le _, inst, rfl, hz⟩
    · have hstep : ∃ c, (getBackOffInstance true backOffScores inst).1 = some c := by
        cases inst with
        | linked h s child => exact ⟨child, rfl⟩
        | base h s =>
          refine ⟨BInstance.base (reducedHistory h (h.length - 1)) 0, ?_⟩
          simp only [BInstance.lookAheadHistory] at hz
          simp [getBackOffInstance, BInstance.backOffInstance, BInstance.lookAheadHistory, hz]
      obtain ⟨c, hc⟩ := hstep
      obtain ⟨hclen, hcwf⟩ := hsome inst c hwf hc
      obtain ⟨k, hk, last, hlast, hlastlen⟩ := ih c hcwf (by omega)
      refine ⟨k + 1, by omega, last, ?_, hlastlen⟩
      simp only [followBackOffChain, hc]
      exact hlast

/-- **C5** witness: the back-off chain theorem applied to a concrete
instance with history [1, 2]: the chain reaches the unigram (empty) history
within 2 hops. -/
theorem getBackOffInstance_chain_witness :
    ∃ k ≤ 2, ∃ last, followBackOffChain (fun _ => 0) k (BInstance.base [1, 2] 0) =
      some last ∧ last.lookAheadHistory.length = 0 :=
  (getBackOffInstance_chain (fun _ => 0)).2.2 2 (BInstance.base [1, 2] 0) trivial
    (by decide)

/-- Frame 1 of the scenario evaluated: the loop (score 0 + 1) and forward
(score 0 + 2) hypotheses. -/
theorem scenarioS1_eval (e : Score) :
    scenarioS1 e = ⟨[⟨0, 1, 0, 0⟩, ⟨1, 2, 0, 0⟩], [0, 1], 0⟩ := by
  rw [scenarioS1, scenarioFrame]
  rw [show expandState (scenarioNet e) false ⟨0, 0, 0, 0⟩ = [(0, 0 + 1), (1, 0 + 2)] from by
    norm_num [expandState, scenarioNet, singleSuccessor, scoreMax]]
  rw [applyUpdates, List.foldl_cons, List.foldl_cons, List.foldl_nil]
  rw [show activateOrUpdateStateHypothesisTransition ⟨[], List.replicate 2 0, 0⟩ ⟨0, 0, 0, 0⟩ (0 + 1) 0 =
      ⟨[⟨0, 0 + 1, 0, 0⟩], [0, 0], 0⟩ from by
    norm_num [activateOrUpdateStateHypothesisTransition, recombinationMiss, List.replicate]]
  rw [show activateOrUpdateStateHypothesisTransition ⟨[⟨0, 0 + 1, 0, 0⟩], [0, 0], 0⟩ ⟨0, 0, 0, 0⟩ (0 + 2) 1 =
      ⟨[⟨0, 0 + 1, 0, 0⟩, ⟨1, 0 + 2, 0, 0⟩], [0, 1], 0⟩ from by
    norm_num [activateOrUpdateStateHypothesisTransition, recombinationMiss]]
  norm_num

/-- Frame 2 of the scenario evaluated: the loop applied a second time. -/
theorem scenarioS2_eval (e : Score) :
    scenarioS2 e = ⟨[⟨0, 2, 0, 0⟩, ⟨1, 3, 0, 0⟩], [0, 1], 0⟩ := by
  rw [scenarioS2, scenarioS1_eval e]
  norm_num
  rw [scenarioFrame]
  rw [show expandState (scenarioNet e) false ⟨0, 1, 0, 0⟩ = [(0, 1 + 1), (1, 1 + 2)] from by
    norm_num [expandState, scenarioNet, singleSuccessor, scoreMax]]
  rw [applyUpdates, List.foldl_cons, List.foldl_cons, List.foldl_nil]
  rw [show activateOrUpdateStateHypothesisTransition ⟨[], [0, 1], 0⟩ ⟨0, 1, 0, 0⟩ (1 + 1) 0 =
      ⟨[⟨0, 1 + 1, 0, 0⟩], [0, 1], 0⟩ from by
    norm_num [activateOrUpdateStateHypothesisTransition, recombinationMiss]]
  rw [show activateOrUpdateStateHypothesisTransition ⟨[⟨0, 1 + 1, 0, 0⟩], [0, 1], 0⟩ ⟨0, 1, 0, 0⟩ (1 + 2) 1 =
      ⟨[⟨0, 1 + 1, 0, 0⟩, ⟨1, 1 + 2, 0, 0⟩], [0, 1], 0⟩ from by
    norm_num [activateOrUpdateStateHypothesisTransition, recombinationMiss]]
  norm_num

/-- Frame 3 of the scenario evaluated: the forward transition with cost 2
out of the twice-looped hypothesis reaches state 1 with score 4. -/
theorem scenarioS3_eval (e : Score) :
    scenarioS3 e = ⟨[⟨0, 3, 0, 0⟩, ⟨1, 4, 0, 0⟩], [0, 1], 0⟩ := by
  rw [scenarioS3, scenarioS2_eval e]
  norm_num
  rw [scenarioFrame]
  rw [show expandState (scenarioNet e) false ⟨0, 2, 0, 0⟩ = [(0, 2 + 1), (1, 2 + 2)] from by
    norm_num [expandState, scenarioNet, singleSuccessor, scoreMax]]
  rw [applyUpdates, List.foldl_cons, List.foldl_cons, List.foldl_nil]
  rw [show activateOrUpdateStateHypothesisTransition ⟨[], [0, 1], 0⟩ ⟨0, 2, 0, 0⟩ (2 + 1) 0 =
      ⟨[⟨0, 2 + 1, 0, 0⟩], [0, 1], 0⟩ from by
    norm_num [activateOrUpdateStateHypothesisTransition, recombinationMiss]]
  rw [show activateOrUpdateStateHypothesisTransition ⟨[⟨0, 2 + 1, 0, 0⟩], [0, 1], 0⟩ ⟨0, 2, 0, 0⟩ (2 + 2) 1 =
      ⟨[⟨0, 2 + 1, 0, 0⟩, ⟨1, 2 + 2, 0, 0⟩], [0, 1], 0⟩ from by
    norm_num [activateOrUpdateStateHypothesisTransition, recombinationMiss]]
  norm_num

/-- **C8**: for a single hypothesis starting at the root with score 0, a
loop transition with cost 1 applied on two consecutive frames followed by a
forward transition with cost 2 into an exit-labeled state yields, through
`findWordEnds`, a word-end hypothesis whose acoustic score component is
exactly 1 + 1 + 2 + the exit transition penalty of that state, before any LM
score is added. -/
theorem scenario_wordEnd_acoustic_score (exitPenalty : Score) :
    (scenarioWordEndScore exitPenalty).acoustic = 1 + 1 + 2 + exitPenalty := by
  rw [scenarioWordEndScore, scenarioS3_eval exitPenalty]
  norm_num [earlyWordEndScore, scenarioNet]

/-- The selection property of the word-end scan of `getSentenceEnd` over a
scanned prefix: a `none` result means no scanned hypothesis qualifies; a
word-end result is a qualifying hypothesis carrying its candidate score,
minimal among all qualifying scanned hypotheses, and strictly better than
every qualifying hypothesis scanned before it (first in scan order on
ties); a state-hypothesis result cannot arise from the word-end scan. -/
def SentenceEndSelection (env : SentenceEndEnv) (scanned : List WordEndHypothesis) :
    Option ((WordEndHypothesis ⊕ StateHypothesis) × ScoreVector) → Prop
  | none => ∀ w ∈ scanned, sentenceEndQualifies env w = false
  | some (Sum.inl w, c) =>
      w ∈ scanned ∧ sentenceEndQualifies env w = true ∧ c = sentenceEndCandidate env w ∧
      (∀ w' ∈ scanned, sentenceEndQualifies env w' = true →
        c.total ≤ (sentenceEndCandidate env w').total) ∧
      ∃ pre post, scanned = pre ++ w :: post ∧
        ∀ w' ∈ pre, sentenceEndQualifies env w' = true →
          c.total < (sentenceEndCandidate env w').total
  | some (Sum.inr _, _) => False

/-- One step of the word-end scan preserves the selection property. -/
theorem sentenceEndStep_preserves (env : SentenceEndEnv)
    (scanned : List WordEndHypothesis)
    (best : Option ((WordEndHypothesis ⊕ StateHypothesis) × ScoreVector))
    (hinv : SentenceEndSelection env scanned best) (w : WordEndHypothesis) :
    SentenceEndSelection env (scanned ++ [w]) (sentenceEndStep env best w) := by
  unfold sentenceEndStep
  by_cases hq : sentenceEndQualifies env w = true
  · simp only [hq, if_true]
    cases best with
    | none =>
      refine ⟨List.mem_append_right _ (List.mem_singleton_self w), hq, rfl, ?_, ?_⟩
      · intro w' hw' hq'
        rcases List.mem_append.mp hw' with h | h
        · exact absurd hq' (by simp [hinv w' h])
        · rw [List.mem_singleton.mp h]
      · exact ⟨scanned, [], rfl, fun w' hw' hq' => absurd hq' (by simp [hinv w' hw'])⟩
    | some bwc =>
      obtain ⟨bw, bs⟩ := bwc
      cases bw with
      | inr sh => exact absurd hinv (by simp [SentenceEndSelection])
      | inl bw =>
        obtain ⟨hmem, hbq, hbc, hmin, pre, post, hsplit, hfirst⟩ := hinv
        by_cases hlt : bs.total > (sentenceEndCandidate env w).total
        · simp only [hlt, if_pos]
          refine ⟨List.mem_append_right _ (List.mem_singleton_self w), hq, rfl, ?_, ?_⟩
          · intro w' hw' hq'
            rcases List.mem_append.mp hw' with h | h
            · exact le_of_lt (lt_of_lt_of_le hlt (hmin w' h hq'))
            · rw [List.mem_singleton.mp h]
          · refine ⟨scanned, [], rfl, ?_⟩
            intro w' hw' hq'
            exact lt_of_lt_of_le hlt (hmin w' hw' hq')
        · simp only [hlt, if_neg, not_false_iff]
          refine ⟨List.mem_append_left _ hmem, hbq, hbc, ?_, ?_⟩
          · intro w' hw' hq'
            rcases List.mem_append.mp hw' with h | h
            · exact hmin w' h hq'
            · rw [List.mem_singleton.mp h]
              exact not_lt.mp hlt
          · refine ⟨pre, post ++ [w], ?_, hfirst⟩
            rw [hsplit]
            simp
  · simp only [hq, Bool.false_eq_true, if_false]
    cases best with
    | none =>
      intro w' hw'
      rcases List.mem_append.mp hw' with h | h
      · exact hinv w' h
      · rw [List.mem_singleton.mp h]
        exact Bool.not_eq_true _ ▸ (by simpa using hq)
    | some bwc =>
      obtain ⟨bw, bs⟩ := bwc
      cases bw with
      | inr sh => exact absurd hinv (by simp [SentenceEndSelection])
      | inl bw =>
        obtain ⟨hmem, hbq, hbc, hmin, pre, post, hsplit, hfirst⟩ := hinv
        refine ⟨List.mem_append_left _ hmem, hbq, hbc, ?_, ?_⟩
        · intro w' hw' hq'
          rcases List.mem_append.mp hw' with h | h
          · exact hmin w' h hq'
          · rw [List.mem_singleton.mp h] at hq'
            exact absurd hq' hq
        · refine ⟨pre, post ++ [w], ?_, hfirst⟩
          rw [hsplit]
          simp

/-- The whole word-end scan preserves the selection property. -/
theorem sentenceEnd_foldl_selection (env : SentenceEndEnv) :
    ∀ (l scanned : List WordEndHypothesis)
      (best : Option ((WordEndHypothesis ⊕ StateHypothesis) × ScoreVector)),
      SentenceEndSelection env scanned best →
      SentenceEndSelection env (scanned ++ l) (l.foldl (sentenceEndStep env) best) := by
  intro l
  induction l with
  | nil =>
    intro scanned best h
    simpa using h
  | cons w rest ih =>
    intro scanned best h
    have hstep := sentenceEndStep_preserves env scanned best h w
    have := ih (scanned ++ [w]) (sentenceEndStep env best w) hstep
    simpa using this

/-- **C4**: with uncoarticulated-boundary tracking disabled (no
uncoarticulated word-end states), `getSentenceEnd` returns, over all live
word-end hypotheses compatible with the (possibly forced) final
coarticulation context, the one with minimum total score after adding the
configured suffix-lemma LM costs and the LM sentence-end score (plus the
global score offset common to all candidates); on equal scores the first
hypothesis in scan order is selected, and a null reference is returned when
no live hypothesis qualifies. -/
theorem getSentenceEnd_selects_minimum (env : SentenceEndEnv)
    (wehs : List WordEndHypothesis) (stateHyps : List (StateHypothesis × Score))
    (huncoart : env.uncoarticulatedWordEndStates = []) :
    SentenceEndSelection env wehs (getSentenceEnd env wehs stateHyps) := by
  have hbase : SentenceEndSelection env [] none := by
    intro w hw
    cases hw
  have h := sentenceEnd_foldl_selection env wehs [] none hbase
  rw [getSentenceEnd]
  simp only [huncoart, ne_eq, not_true_eq_false, if_false]
  simpa using h

/-- **C4** witness: the selection theorem applied to word-end hypotheses
with total scores [5, 3, 3] sharing the allowed transit state 4: the first
3-scored hypothesis (history 2) is selected. -/
theorem getSentenceEnd_selects_minimum_witness :
    SentenceEndSelection
      ⟨4, 4, [], none, fun _ => 0, fun _ => 0, 0, fun _ => 0, fun _ => 0⟩
      [⟨1, 0, 4, 0, 0, ⟨5, 0⟩, [1]⟩, ⟨2, 0, 4, 0, 0, ⟨3, 0⟩, [2]⟩,
       ⟨3, 0, 4, 0, 0, ⟨3, 0⟩, [3]⟩]
      (getSentenceEnd ⟨4, 4, [], none, fun _ => 0, fun _ => 0, 0, fun _ => 0, fun _ => 0⟩
        [⟨1, 0, 4, 0, 0, ⟨5, 0⟩, [1]⟩, ⟨2, 0, 4, 0, 0, ⟨3, 0⟩, [2]⟩,
         ⟨3, 0, 4, 0, 0, ⟨3, 0⟩, [3]⟩] []) :=
  getSentenceEnd_selects_minimum
    ⟨4, 4, [], none, fun _ => 0, fun _ => 0, 0, fun _ => 0, fun _ => 0⟩
    [⟨1, 0, 4, 0, 0, ⟨5, 0⟩, [1]⟩, ⟨2, 0, 4, 0, 0, ⟨3, 0⟩, [2]⟩,
     ⟨3, 0, 4, 0, 0, ⟨3, 0⟩, [3]⟩] [] rfl

/-- Each recombination call either appends one hypothesis at the end of the
arena or updates one in place: the arena never shrinks. -/
theorem applyExpandOp_length_mono (s : RecombState) (op : ExpandOp) :
    s.newStateHypotheses.length ≤ (applyExpandOp s op).newStateHypotheses.length := by
  cases op with
  | loop hyp score =>
    simp only [applyExpandOp]
    unfold activateOrUpdateStateHypothesisLoop
    dsimp only
    split
    · simp
    · split
      · split
        · simp
        · exact le_refl _
      · exact le_refl _
  | transition hyp score succ =>
    simp only [applyExpandOp]
    unfold activateOrUpdateStateHypothesisTransition
    dsimp only
    split
    · simp
    · split
      · split
        · simp
        · exact le_refl _
      · exact le_refl _
  | direct hyp =>
    simp only [applyExpandOp]
    unfold activateOrUpdateStateHypothesisDirectly
    dsimp only
    split
    · simp
    · split
      · split
        · simp
        · exact le_refl _
      · exact le_refl _

/-- The arena never shrinks over a whole op list. -/
theorem foldl_applyExpandOp_length_mono (ops : List ExpandOp) :
    ∀ s : RecombState,
      s.newStateHypotheses.length ≤
        (ops.foldl applyExpandOp s).newStateHypotheses.length := by
  induction ops with
  | nil => intro s; exact le_refl _
  | cons op rest ih =>
    intro s
    exact le_trans (applyExpandOp_length_mono s op) (ih (applyExpandOp s op))

/-- Appending an instance whose range starts exactly at the current total
extends a range chain. -/
theorem rangesChainFrom_append (x : SInstance) :
    ∀ (l : List SInstance) (k m : ℕ), rangesChainFrom k l m →
      x.statesBegin = m → m ≤ x.statesEnd →
      rangesChainFrom k (l ++ [x]) x.statesEnd := by
  intro l
  induction l with
  | nil =>
    intro k m h hb he
    have hk : k = m := h
    subst hk
    exact ⟨hb, hb ▸ he, rfl⟩
  | cons y rest ih =>
    intro k m h hb he
    exact ⟨h.1, h.2.1, ih y.statesEnd m h.2.2 hb he⟩

/-- A range chain from `k` to `total` makes the per-instance range sizes sum
to `total - k`. -/
theorem rangesChainFrom_sum :
    ∀ (l : List SInstance) (k total : ℕ), rangesChainFrom k l total →
      k + (l.map (fun i => i.statesEnd - i.statesBegin)).sum = total := by
  intro l
  induction l with
  | nil =>
    intro k total h
    simpa using h
  | cons x rest ih =>
    intro k total h
    obtain ⟨hb, he, hrest⟩ := h
    have := ih x.statesEnd total hrest
    simp only [List.map_cons, List.sum_cons]
    omega

/-- Every instance of a range chain has its range inside `[k, total)`. -/
theorem rangesChainFrom_bounds :
    ∀ (l : List SInstance) (k total : ℕ), rangesChainFrom k l total →
      ∀ (j : ℕ) (inst : SInstance), l.get? j = some inst →
        k ≤ inst.statesBegin ∧ inst.statesEnd ≤ total := by
  intro l
  induction l with
  | nil =>
    intro k total _ j inst hj
    simp at hj
  | cons x rest ih =>
    intro k total h j inst hj
    obtain ⟨hb, he, hrest⟩ := h
    cases j with
    | zero =>
      rw [List.get?_cons_zero, Option.some.injEq] at hj
      subst hj
      constructor
      · omega
      · have hsum := rangesChainFrom_sum rest x.statesEnd total hrest
        omega
    | succ j' =>
      rw [List.get?_cons_succ] at hj
      have := ih x.statesEnd total hrest j' inst hj
      constructor
      · omega
      · exact this.2

/-- A range chain covers every index in `[k, total)` by exactly one
instance's range. -/
theorem rangesChainFrom_unique_cover :
    ∀ (l : List SInstance) (k total : ℕ), rangesChainFrom k l total →
      ∀ i, k ≤ i → i < total →
        ∃! j : ℕ, ∃ inst, l.get? j = some inst ∧
          inst.statesBegin ≤ i ∧ i < inst.statesEnd := by
  intro l
  induction l with
  | nil =>
    intro k total h i hk hi
    simp only [rangesChainFrom] at h
    omega
  | cons x rest ih =>
    intro k total h i hk hi
    obtain ⟨hb, he, hrest⟩ := h
    by_cases hcase : i < x.statesEnd
    · refine ⟨0, ⟨x, rfl, by omega, hcase⟩, ?_⟩
      intro j hj
      obtain ⟨inst, hget, hbi, hie⟩ := hj
      cases j with
      | zero => rfl
      | succ j' =>
        rw [List.get?_cons_succ] at hget
        have := rangesChainFrom_bounds rest x.statesEnd total hrest j' inst hget
        omega
    · obtain ⟨j', hj', huniq⟩ := ih x.statesEnd total hrest i (by omega) hi
      refine ⟨j' + 1, ?_, ?_⟩
      · obtain ⟨inst, hget, hbi, hie⟩ := hj'
        exact ⟨inst, by simpa using hget, hbi, hie⟩
      · intro j hj
        obtain ⟨inst, hget, hbi, hie⟩ := hj
        cases j with
        | zero =>
          rw [List.get?_cons_zero, Option.some.injEq] at hget
          subst hget
          omega
        | succ j'' =>
          rw [List.get?_cons_succ] at hget
          have := huniq j'' ⟨inst, hget, hbi, hie⟩
          omega

/-- The `expandHmm` loop maintains the chain invariant. -/
theorem expandHmm_fold_chain :
    ∀ (ios : List (SInstance × List ExpandOp)) (acc : RecombState × List SInstance),
      rangesChainFrom 0 acc.2 acc.1.newStateHypotheses.length →
      rangesChainFrom 0 (ios.foldl expandHmmStep acc).2
        (ios.foldl expandHmmStep acc).1.newStateHypotheses.length := by
  intro ios
  induction ios with
  | nil => intro acc h; exact h
  | cons io rest ih =>
    intro acc h
    rw [List.foldl_cons]
    apply ih
    show rangesChainFrom 0 (expandHmmStep acc io).2
      (expandHmmStep acc io).1.newStateHypotheses.length
    unfold expandHmmStep expandHmmInstance
    dsimp only
    exact rangesChainFrom_append _ acc.2 0 acc.1.newStateHypotheses.length h rfl
      (foldl_applyExpandOp_length_mono io.2
        { acc.1 with currentTreeFirstNewStateHypothesis := acc.1.newStateHypotheses.length })

/-- `eventuallyDeactivateTree` keeps the instance's range unchanged, and
deletes only instances with an empty range. -/
theorem eventuallyDeactivateTree_range (latency : ℕ) (inst : SInstance) :
    (∀ kept, eventuallyDeactivateTree latency inst = some kept →
       kept.statesBegin = inst.statesBegin ∧ kept.statesEnd = inst.statesEnd) ∧
    (eventuallyDeactivateTree latency inst = none →
       inst.statesBegin = inst.statesEnd) := by
  unfold eventuallyDeactivateTree
  constructor
  · intro kept hkept
    split at hkept
    · rw [Option.some.injEq] at hkept
      subst hkept
      exact ⟨rfl, rfl⟩
    · split at hkept
      · rw [Option.some.injEq] at hkept
        subst hkept
        exact ⟨rfl, rfl⟩
      · split at hkept
        · rw [Option.some.injEq] at hkept
          subst hkept
          exact ⟨rfl, rfl⟩
        · cases hkept
  · intro hnone
    split at hnone
    · cases hnone
    · split at hnone
      · cases hnone
      · split at hnone
        · cases hnone
        · rename_i hbe hlt
          exact of_not_not (by simpa using hbe)

/-- The `pruneStates` loop maintains the chain invariant on its compacted
output. -/
theorem pruneStates_fold_chain (prune : StateHypothesis → Bool) (latency : ℕ)
    (hyps : List StateHypothesis) :
    ∀ (instances : List SInstance) (acc : List SInstance × List StateHypothesis),
      rangesChainFrom 0 acc.1 acc.2.length →
      rangesChainFrom 0
        (instances.foldl (pruneStatesStep prune latency hyps) acc).1
        (instances.foldl (pruneStatesStep prune latency hyps) acc).2.length := by
  intro instances
  induction instances with
  | nil => intro acc h; exact h
  | cons inst rest ih =>
    intro acc h
    rw [List.foldl_cons]
    apply ih
    show rangesChainFrom 0 (pruneStatesStep prune latency hyps acc inst).1
      (pruneStatesStep prune latency hyps acc inst).2.length
    unfold pruneStatesStep
    dsimp only
    generalize ((hyps.drop inst.statesBegin).take
        (inst.statesEnd - inst.statesBegin)).filter (fun h => !prune h) = survivors
    cases hdeact : eventuallyDeactivateTree latency
        { inst with statesBegin := acc.2.length,
                    statesEnd := acc.2.length + survivors.length } with
    | some kept =>
      simp only [hdeact]
      have hr := (eventuallyDeactivateTree_range latency _).1 kept hdeact
      have hb : kept.statesBegin = acc.2.length := hr.1
      have he2 : kept.statesEnd = acc.2.length + survivors.length := hr.2
      have happ := rangesChainFrom_append kept acc.1 0 acc.2.length h hb (by omega)
      have hlen : (acc.2 ++ survivors).length = kept.statesEnd := by
        rw [List.length_append, he2]
      rw [hlen]
      exact happ
    | none =>
      simp only [hdeact]
      have hempty : acc.2.length = acc.2.length + survivors.length :=
        (eventuallyDeactivateTree_range latency _).2 hdeact
      have hlen : survivors.length = 0 := by omega
      have hnil : (acc.2 ++ survivors).length = acc.2.length := by
        rw [List.length_append, hlen]
        omega
      rw [hnil]
      exact h

/-- **C7**: after a frame's expansion (`expandHmm`) and after any pruning
pass (`pruneStates`), the total number of live state hypotheses equals the
sum over all active instances of `states.end - states.begin`, and every
live state hypothesis index lies within exactly one active instance's
declared `[begin, end)` range — the ranges are contiguous, disjoint, and
cover the hypothesis array. -/
theorem expansion_and_pruning_partition (recombArray : List ℕ)
    (instOps : List (SInstance × List ExpandOp)) (prune : StateHypothesis → Bool)
    (latency : ℕ) (instances : List SInstance) (hyps : List StateHypothesis) :
    (((expandHmm recombArray instOps).2.map
        (fun i => i.statesEnd - i.statesBegin)).sum =
      (expandHmm recombArray instOps).1.newStateHypotheses.length ∧
     ∀ i < (expandHmm recombArray instOps).1.newStateHypotheses.length,
       ∃! j : ℕ, ∃ inst, (expandHmm recombArray instOps).2.get? j = some inst ∧
         inst.statesBegin ≤ i ∧ i < inst.statesEnd) ∧
    (((pruneStates prune latency instances hyps).1.map
        (fun i => i.statesEnd - i.statesBegin)).sum =
      (pruneStates prune latency instances hyps).2.length ∧
     ∀ i < (pruneStates prune latency instances hyps).2.length,
       ∃! j : ℕ, ∃ inst, (pruneStates prune latency instances hyps).1.get? j = some inst ∧
         inst.statesBegin ≤ i ∧ i < inst.statesEnd) := by
  have hexp : rangesChainFrom 0 (expandHmm recombArray instOps).2
      (expandHmm recombArray instOps).1.newStateHypotheses.length := by
    unfold expandHmm
    exact expandHmm_fold_chain instOps (⟨[], recombArray, 0⟩, []) rfl
  have hpru : rangesChainFrom 0 (pruneStates prune latency instances hyps).1
      (pruneStates prune latency instances hyps).2.length := by
    unfold pruneStates
    exact pruneStates_fold_chain prune latency hyps instances ([], []) rfl
  refine ⟨⟨?_, ?_⟩, ?_, ?_⟩
  · have := rangesChainFrom_sum _ _ _ hexp
    omega
  · intro i hi
    exact rangesChainFrom_unique_cover _ _ _ hexp i (Nat.zero_le i) hi
  · have := rangesChainFrom_sum _ _ _ hpru
    omega
  · intro i hi
    exact rangesChainFrom_unique_cover _ _ _ hpru i (Nat.zero_le i) hi

/-- **C7** witness: the partition theorem applied to one instance expanding
one direct recombination call from an empty arena. -/
theorem expansion_and_pruning_partition_witness :
    ((expandHmm [0] [(⟨0, 0, 0, true⟩, [ExpandOp.direct ⟨0, 1, 0, 0⟩])]).2.map
        (fun i => i.statesEnd - i.statesBegin)).sum =
      (expandHmm [0]
        [(⟨0, 0, 0, true⟩, [ExpandOp.direct ⟨0, 1, 0, 0⟩])]).1.newStateHypotheses.length :=
  (expansion_and_pruning_partition [0] [(⟨0, 0, 0, true⟩, [ExpandOp.direct ⟨0, 1, 0, 0⟩])]
    (fun _ => false) 0 [] []).1.1

/-- A left fold of `max` either returns its seed or an element of the
list. -/
theorem foldl_max_eq_or_mem :
    ∀ (l : List ℕ) (a : ℕ), l.foldl max a = a ∨ l.foldl max a ∈ l := by
  intro l
  induction l with
  | nil => intro a; exact Or.inl rfl
  | cons x xs ih =>
    intro a
    rw [List.foldl_cons]
    rcases ih (max a x) with h | h
    · rcases max_choice a x with hm | hm
      · exact Or.inl (h.trans hm)
      · exact Or.inr (by rw [h, hm]; exact List.mem_cons_self x xs)
    · exact Or.inr (List.mem_cons_of_mem x h)

/-- Filtering with a weaker predicate keeps at least as many elements. -/
theorem length_filter_mono {α : Type} (l : List α) (p q : α → Bool)
    (h : ∀ x ∈ l, p x = true → q x = true) :
    (l.filter p).length ≤ (l.filter q).length := by
  induction l with
  | nil => exact le_refl 0
  | cons x xs ih =>
    have hx := h x (List.mem_cons_self x xs)
    have hxs : ∀ y ∈ xs, p y = true → q y = true :=
      fun y hy => h y (List.mem_cons_of_mem x hy)
    simp only [List.filter_cons]
    cases hp : p x with
    | true =>
      rw [hx hp]
      simpa using ih hxs
    | false =>
      cases hq : q x with
      | true =>
        simp only [if_true]
        have := ih hxs
        simp only [Bool.false_eq_true, if_false]
        simp only [List.length_cons]
        omega
      | false =>
        simp only [Bool.false_eq_true, if_false]
        exact ih hxs

/-- A prospect strictly below the `K`-th bin boundary lies in a bin below
`K`. -/
theorem histogramBin_lt_of_lt_boundary (lower binSize : Score) (nBins K : ℕ)
    (p : Score) (hp : lower ≤ p) (hlt : p < lower + binSize * K) :
    histogramBin lower binSize nBins p < K := by
  have hbs : 0 < binSize := by
    by_contra hbs
    push_neg at hbs
    have hKnn : (0 : ℚ) ≤ (K : ℚ) := by positivity
    have : binSize * K ≤ 0 := mul_nonpos_of_nonpos_of_nonneg hbs hKnn
    linarith
  have hK : 0 < K := by
    by_contra hK0
    push_neg at hK0
    have hK0' : K = 0 := by omega
    rw [hK0'] at hlt
    simp at hlt
    linarith
  have hdiv : (p - lower) / binSize < (K : ℚ) := by
    rw [div_lt_iff hbs]
    have : binSize * K = (K : ℚ) * binSize := mul_comm _ _
    linarith [hlt, this]
  have hfloor : ⌊(p - lower) / binSize⌋ < (K : ℤ) :=
    Int.floor_lt.mpr (by exact_mod_cast hdiv)
  have htn : (⌊(p - lower) / binSize⌋).toNat < K := by
    rcases le_or_lt 0 ⌊(p - lower) / binSize⌋ with h0 | h0
    · exact (Int.toNat_lt h0).mpr (by exact_mod_cast hfloor)
    · rw [Int.toNat_of_nonpos (le_of_lt h0)]
      exact hK
  exact lt_of_le_of_lt (min_le_right _ _) htn

/-- The quantile threshold of `quantileStateScore` written out: the lower
limit plus bin size times the chosen bin count. -/
theorem quantileStateScore_eq (hyps : List StateHypothesis) (lower beam : Score)
    (nBins limit : ℕ) :
    quantileStateScore hyps lower (lower + beam) nBins limit =
      lower + ((lower + beam - lower) / (nBins : ℚ)) *
        (((List.range (nBins + 1)).filter
          (fun k => histogramCountBelow hyps lower
            ((lower + beam - lower) / (nBins : ℚ)) nBins k ≤ limit)).foldl max 0) := by
  rw [quantileStateScore]

/-- The quantile threshold never lies below the histogram's lower limit. -/
theorem quantileStateScore_ge_lower (hyps : List StateHypothesis) (lower beam : Score)
    (nBins limit : ℕ) (hbeam : 0 ≤ beam) :
    lower ≤ quantileStateScore hyps lower (lower + beam) nBins limit := by
  rw [quantileStateScore_eq]
  have hb : lower + beam - lower = beam := by ring
  have h1 : (0 : ℚ) ≤ (lower + beam - lower) / (nBins : ℚ) := by
    rw [hb]
    positivity
  have h2 : (0 : ℚ) ≤ ((((List.range (nBins + 1)).filter
      (fun k => histogramCountBelow hyps lower
        ((lower + beam - lower) / (nBins : ℚ)) nBins k ≤ limit)).foldl max 0 : ℕ) : ℚ) := by
    positivity
  nlinarith

/-- At most `limit` hypotheses fall strictly below the quantile's chosen bin
boundary. -/
theorem quantileStateScore_count (hyps : List StateHypothesis) (lower binSize : Score)
    (nBins limit : ℕ) :
    histogramCountBelow hyps lower binSize nBins
      (((List.range (nBins + 1)).filter
        (fun k => histogramCountBelow hyps lower binSize nBins k ≤ limit)).foldl max 0)
      ≤ limit := by
  rcases foldl_max_eq_or_mem ((List.range (nBins + 1)).filter
      (fun k => histogramCountBelow hyps lower binSize nBins k ≤ limit)) 0 with hz | hmem
  · rw [hz]
    simp [histogramCountBelow]
  · exact of_decide_eq_true (List.mem_filter.mp hmem).2

/-- **C3** (amended): histogram pruning with the quantile threshold always
retains the hypothesis with the globally best (minimum) prospect, and the
number of retained hypotheses with prospect *strictly below* the quantile
threshold is at most the configured limit; the retained total can exceed the
limit when several hypotheses share the threshold boundary (bin
granularity / exact ties). -/
theorem histogramPruning_retains_best_and_bounds (hyps : List StateHypothesis)
    (bestProspect acousticPruning : Score) (nBins limit : ℕ)
    (hbeam : 0 ≤ acousticPruning)
    (hlb : ∀ h ∈ hyps, bestProspect ≤ h.prospect)
    (hbest : ∃ h ∈ hyps, h.prospect = bestProspect) :
    (∃ h ∈ histogramPruning hyps bestProspect acousticPruning nBins limit,
       h.prospect = bestProspect) ∧
    ((histogramPruning hyps bestProspect acousticPruning nBins limit).filter
       (fun h => decide (h.prospect <
         histogramPruningThreshold hyps bestProspect acousticPruning nBins limit))).length
      ≤ limit := by
  have hθge : bestProspect ≤
      histogramPruningThreshold hyps bestProspect acousticPruning nBins limit := by
    rw [histogramPruningThreshold]
    exact quantileStateScore_ge_lower hyps bestProspect acousticPruning nBins limit hbeam
  have hfilter : histogramPruning hyps bestProspect acousticPruning nBins limit =
      hyps.filter (fun h => !acousticPruningPrune bestProspect
        (histogramPruningThreshold hyps bestProspect acousticPruning nBins limit -
          bestProspect) h) := by
    rw [histogramPruning, histogramPruningThreshold]
  constructor
  · obtain ⟨h₀, hmem, hp₀⟩ := hbest
    refine ⟨h₀, ?_, hp₀⟩
    rw [hfilter]
    apply List.mem_filter.mpr
    refine ⟨hmem, ?_⟩
    simp only [acousticPruningPrune, Bool.not_eq_true', decide_eq_false_iff_not, not_lt]
    rw [hp₀]
    linarith
  · have hsub : ∀ h ∈ hyps,
        ((!acousticPruningPrune bestProspect
            (histogramPruningThreshold hyps bestProspect acousticPruning nBins limit -
              bestProspect) h) &&
          decide (h.prospect <
            histogramPruningThreshold hyps bestProspect acousticPruning nBins limit)) =
          true →
        decide (histogramBin bestProspect
          ((bestProspect + acousticPruning - bestProspect) / (nBins : ℚ)) nBins h.prospect <
          ((List.range (nBins + 1)).filter
            (fun k => histogramCountBelow hyps bestProspect
              ((bestProspect + acousticPruning - bestProspect) / (nBins : ℚ)) nBins k ≤
                limit)).foldl max 0) = true := by
      intro h hmemh hcond
      rw [Bool.and_eq_true] at hcond
      have hlt : h.prospect <
          histogramPruningThreshold hyps bestProspect acousticPruning nBins limit :=
        of_decide_eq_true hcond.2
      apply decide_eq_true
      apply histogramBin_lt_of_lt_boundary _ _ nBins _ h.prospect (hlb h hmemh)
      rw [histogramPruningThreshold, quantileStateScore_eq] at hlt
      exact hlt
    have hlen := length_filter_mono hyps
      (fun h => (decide (h.prospect <
          histogramPruningThreshold hyps bestProspect acousticPruning nBins limit)) &&
        (!acousticPruningPrune bestProspect
          (histogramPruningThreshold hyps bestProspect acousticPruning nBins limit -
            bestProspect) h))
      (fun h => decide (histogramBin bestProspect
        ((bestProspect + acousticPruning - bestProspect) / (nBins : ℚ)) nBins h.prospect <
        ((List.range (nBins + 1)).filter
          (fun k => histogramCountBelow hyps bestProspect
            ((bestProspect + acousticPruning - bestProspect) / (nBins : ℚ)) nBins k ≤
              limit)).foldl max 0))
      (by
        intro x hx hpx
        apply hsub x hx
        rw [Bool.and_eq_true] at hpx ⊢
        exact ⟨hpx.2, hpx.1⟩)
    calc ((histogramPruning hyps bestProspect acousticPruning nBins limit).filter
            (fun h => decide (h.prospect <
              histogramPruningThreshold hyps bestProspect acousticPruning nBins
                limit))).length
        = (hyps.filter
            (fun h => (decide (h.prospect <
                histogramPruningThreshold hyps bestProspect acousticPruning nBins limit)) &&
              (!acousticPruningPrune bestProspect
                (histogramPruningThreshold hyps bestProspect acousticPruning nBins limit -
                  bestProspect) h))).length := by
          rw [hfilter, List.filter_filter]
      _ ≤ (hyps.filter
            (fun h => decide (histogramBin bestProspect
              ((bestProspect + acousticPruning - bestProspect) / (nBins : ℚ)) nBins
                h.prospect <
              ((List.range (nBins + 1)).filter
                (fun k => histogramCountBelow hyps bestProspect
                  ((bestProspect + acousticPruning - bestProspect) / (nBins : ℚ)) nBins k ≤
                    limit)).foldl max 0))).length := hlen
      _ = histogramCountBelow hyps bestProspect
            ((bestProspect + acousticPruning - bestProspect) / (nBins : ℚ)) nBins
            (((List.range (nBins + 1)).filter
              (fun k => histogramCountBelow hyps bestProspect
                ((bestProspect + acousticPruning - bestProspect) / (nBins : ℚ)) nBins k ≤
                  limit)).foldl max 0) := rfl
      _ ≤ limit := quantileStateScore_count hyps bestProspect
            ((bestProspect + acousticPruning - bestProspect) / (nBins : ℚ)) nBins limit

/-- **C3** witness: the amended histogram-pruning theorem applied to two
hypotheses with prospects 0 and 10, best prospect 0, beam 10, one bin,
limit 1. -/
theorem histogramPruning_retains_best_and_bounds_witness :
    (∃ h ∈ histogramPruning [⟨0, 0, 0, 0⟩, ⟨1, 0, 10, 0⟩] 0 10 1 1,
       h.prospect = 0) ∧
    ((histogramPruning [⟨0, 0, 0, 0⟩, ⟨1, 0, 10, 0⟩] 0 10 1 1).filter
       (fun h => decide (h.prospect <
         histogramPruningThreshold [⟨0, 0, 0, 0⟩, ⟨1, 0, 10, 0⟩] 0 10 1 1))).length
      ≤ 1 :=
  histogramPruning_retains_best_and_bounds [⟨0, 0, 0, 0⟩, ⟨1, 0, 10, 0⟩] 0 10 1 1
    (by norm_num)
    (by
      intro h hm
      rcases List.mem_cons.mp hm with h0 | hm'
      · rw [h0]
      · rcases List.mem_cons.mp hm' with h1 | hm''
        · rw [h1]
          norm_num
        · cases hm'')
    ⟨⟨0, 0, 0, 0⟩, List.mem_cons_self _ _, rfl⟩

/-- **C3** counterexample: two equal-prospect hypotheses with limit 1 —
histogram pruning retains both (the quantile threshold cannot separate
exact ties), exceeding the configured limit. -/
theorem histogramPruning_limit_counterexample :
    (histogramPruning [⟨0, 0, 0, 0⟩, ⟨1, 0, 0, 0⟩] 0 10 1 1).length = 2 ∧ 1 < 2 := by
  constructor
  · norm_num [histogramPruning, quantileStateScore, histogramCountBelow, histogramBin,
      acousticPruningPrune, List.range_succ, List.range_zero, List.filter]
  · norm_num


/-- The second-order helper enumerates exactly the successor list of the
forward successor. -/
theorem slowSecondOrderExpansion_eq (net : Network) (successor : StateId) (skipScore : Score) :
    slowSecondOrderExpansion net successor skipScore =
      (net.succ successor).successorList.map (fun s2 => (s2, skipScore)) := by
  rw [slowSecondOrderExpansion]
  cases he : net.succ successor <;>
    simp [batchSuccessorsSimple, SuccEncoding.successorList, Nat.add_sub_cancel_left,
      List.range'_one]

/-- Normal form of `expandStateSlow`: the second-order batch part followed by
the per-successor forward/skip emissions, with all branch conditions made
explicit. -/
theorem expandStateSlow_nf (net : Network) (f sk : Bool) (hyp : StateHypothesis) :
    expandStateSlow net f sk hyp =
      (if sk = true ∧ hyp.score + (net.tdp hyp.state).skip < scoreMax ∧
          (net.secondOrder hyp.state).1 ≠ 0 then
         (List.range' (net.secondOrder hyp.state).1
           ((net.secondOrder hyp.state).2 - (net.secondOrder hyp.state).1)).map
           (fun a => (a, hyp.score + (net.tdp hyp.state).skip))
       else []) ++
      (if hyp.score + (net.tdp hyp.state).forward < scoreMax then
         (net.succ hyp.state).successorList.flatMap (fun successor =>
           (if f = true then [(successor, hyp.score + (net.tdp hyp.state).forward)] else []) ++
           (if sk = true ∧ hyp.score + (net.tdp hyp.state).skip < scoreMax ∧
               (net.secondOrder hyp.state).1 = 0 then
             (net.succ successor).successorList.map
               (fun s2 => (s2, hyp.score + (net.tdp hyp.state).skip))
            else []))
       else []) := by
  unfold expandStateSlow
  dsimp only
  by_cases hsk : sk = true <;>
    by_cases hslt : hyp.score + (net.tdp hyp.state).skip < scoreMax <;>
      by_cases hz : (net.secondOrder hyp.state).1 = 0 <;>
        cases he : net.succ hyp.state <;>
          simp [he, hsk, hslt, hz, batchSuccessorsSimple, SuccEncoding.successorList,
            slowSecondOrderExpansion_eq, Nat.add_sub_cancel_left, List.range'_one]

/-- Interleaved per-element emissions are a permutation of the two grouped
emission lists. -/
theorem flatMap_append_perm {α β : Type} (l : List α) (f g : α → List β) :
    (l.flatMap (fun x => f x ++ g x)).Perm (l.flatMap f ++ l.flatMap g) := by
  induction l with
  | nil => simp
  | cons x xs ih =>
    simp only [List.flatMap_cons]
    refine (ih.append_left (f x ++ g x)).trans ?_
    have h1 : (f x ++ g x) ++ (xs.flatMap f ++ xs.flatMap g) =
        f x ++ ((g x ++ xs.flatMap f) ++ xs.flatMap g) := by
      simp [List.append_assoc]
    have h2 : (f x ++ xs.flatMap f) ++ (g x ++ xs.flatMap g) =
        f x ++ ((xs.flatMap f ++ g x) ++ xs.flatMap g) := by
      simp [List.append_assoc]
    rw [h1, h2]
    exact ((List.perm_append_comm.append_right _).append_left _)

/-- A flatMap that emits nothing is empty. -/
theorem flatMap_const_nil {α β : Type} (l : List α) :
    (l.flatMap (fun _ => ([] : List β))) = [] := by
  induction l with
  | nil => rfl
  | cons x xs ih => simp [ih]

/-- Core equivalence of the fast and slow expansion bodies: for a successor
enumeration shared by both paths, forward emissions followed by the fast skip
section are a permutation of the slow walk normal form, provided the
second-order table is well-formed (an unset begin bound implies an unset end
bound). -/
theorem expandCorePerm (net : Network) (allowSkip : Bool) (hyp : StateHypothesis)
    (enum : List StateId)
    (hwf : (net.secondOrder hyp.state).1 = 0 → (net.secondOrder hyp.state).2 = 0)
    (henum : (net.succ hyp.state).successorList = enum) :
    (((if hyp.score + (net.tdp hyp.state).forward < scoreMax then
        enum.map (fun s => (s, hyp.score + (net.tdp hyp.state).forward)) else []) ++
      (if allowSkip = true then
        (if (net.secondOrder hyp.state).1 ≠ (net.secondOrder hyp.state).2 then
          (if hyp.score + (net.tdp hyp.state).skip < scoreMax then
            (List.range' (net.secondOrder hyp.state).1
              ((net.secondOrder hyp.state).2 - (net.secondOrder hyp.state).1)).map
              (fun s2 => (s2, hyp.score + (net.tdp hyp.state).skip))
           else [])
         else if (net.secondOrder hyp.state).1 = 0 then expandStateSlow net false true hyp
         else [])
       else []))).Perm
    ((if allowSkip = true ∧ hyp.score + (net.tdp hyp.state).skip < scoreMax ∧
        (net.secondOrder hyp.state).1 ≠ 0 then
        (List.range' (net.secondOrder hyp.state).1
          ((net.secondOrder hyp.state).2 - (net.secondOrder hyp.state).1)).map
          (fun a => (a, hyp.score + (net.tdp hyp.state).skip))
      else []) ++
     (if hyp.score + (net.tdp hyp.state).forward < scoreMax then
        enum.flatMap (fun successor =>
          [(successor, hyp.score + (net.tdp hyp.state).forward)] ++
          (if allowSkip = true ∧ hyp.score + (net.tdp hyp.state).skip < scoreMax ∧
              (net.secondOrder hyp.state).1 = 0 then
            (net.succ successor).successorList.map
              (fun s2 => (s2, hyp.score + (net.tdp hyp.state).skip))
           else []))
      else [])) := by
  by_cases hsk : allowSkip = true
  · by_cases hslt : hyp.score + (net.tdp hyp.state).skip < scoreMax
    · by_cases hz : (net.secondOrder hyp.state).1 = 0
      · have hz2 : (net.secondOrder hyp.state).2 = 0 := hwf hz
        rw [expandStateSlow_nf, henum]
        simp only [hsk, hslt, hz, hz2, ne_eq, not_true_eq_false, if_false, if_true,
          true_and, and_true, lt_irrefl, not_false_iff, Bool.false_eq_true, false_and,
          and_false, List.nil_append, List.append_nil]
        by_cases hfw : hyp.score + (net.tdp hyp.state).forward < scoreMax
        · simp only [hfw, if_true, List.nil_append]
          have hmap : enum.map (fun s => (s, hyp.score + (net.tdp hyp.state).forward)) =
              enum.flatMap (fun s => [(s, hyp.score + (net.tdp hyp.state).forward)]) :=
            List.map_eq_bind _ _
          rw [hmap]
          exact (flatMap_append_perm enum _ _).symm
        · simp [hfw]
      · by_cases hss : (net.secondOrder hyp.state).1 = (net.secondOrder hyp.state).2
        · have hz2 : ¬ (net.secondOrder hyp.state).2 = 0 := hss ▸ hz
          simp only [hsk, hslt, hz, hz2, hss, Nat.sub_self, ne_eq, eq_self_iff_true,
            not_true_eq_false, if_false, if_true, true_and, and_true, not_false_iff,
            false_and, and_false, List.range'_zero, List.map_nil, List.nil_append,
            List.append_nil, Bool.false_eq_true]
          by_cases hfw : hyp.score + (net.tdp hyp.state).forward < scoreMax
          · simp only [hfw, if_true]
            rw [List.map_eq_bind]
          · simp [hfw]
        · simp only [hsk, hslt, hz, hss, ne_eq, not_false_iff, if_true, true_and,
            and_true, not_true_eq_false, if_false, false_and, and_false,
            Bool.false_eq_true]
          by_cases hfw : hyp.score + (net.tdp hyp.state).forward < scoreMax
          · simp only [hfw, if_true]
            refine List.perm_append_comm.trans ?_
            apply List.Perm.append_left
            rw [List.map_eq_bind]
            exact List.Perm.refl _
          · simp only [hfw, if_false, Bool.false_eq_true, List.nil_append,
              List.append_nil]
            exact List.Perm.refl _
    · have hskipp : (if allowSkip = true then
          (if (net.secondOrder hyp.state).1 ≠ (net.secondOrder hyp.state).2 then
            (if hyp.score + (net.tdp hyp.state).skip < scoreMax then
              (List.range' (net.secondOrder hyp.state).1
                ((net.secondOrder hyp.state).2 - (net.secondOrder hyp.state).1)).map
                (fun s2 => (s2, hyp.score + (net.tdp hyp.state).skip))
             else [])
           else if (net.secondOrder hyp.state).1 = 0 then expandStateSlow net false true hyp
           else [])
         else []) = [] := by
        rw [if_pos hsk]
        by_cases hss : (net.secondOrder hyp.state).1 ≠ (net.secondOrder hyp.state).2
        · rw [if_pos hss, if_neg hslt]
        · rw [if_neg hss]
          by_cases hz : (net.secondOrder hyp.state).1 = 0
          · rw [if_pos hz, expandStateSlow_nf]
            simp only [hslt, false_and, and_false, if_false, List.nil_append]
            by_cases hfw : hyp.score + (net.tdp hyp.state).forward < scoreMax
            · simp only [hfw, if_true]
              have : ∀ successor : StateId,
                  ([] : List Update) ++
                    (if False then (net.succ successor).successorList.map
                      (fun s2 => (s2, hyp.score + (net.tdp hyp.state).skip)) else []) = [] := by
                intro successor
                simp
              simp [flatMap_const_nil]
            · simp [hfw]
          · rw [if_neg hz]
      rw [hskipp]
      simp only [hslt, false_and, and_false, if_false, List.nil_append, List.append_nil]
      by_cases hfw : hyp.score + (net.tdp hyp.state).forward < scoreMax
      · simp only [hfw, if_true]
        rw [List.map_eq_bind]
      · simp [hfw]
  · simp only [hsk, if_false, Bool.false_eq_true, false_and, List.nil_append,
      List.append_nil]
    by_cases hfw : hyp.score + (net.tdp hyp.state).forward < scoreMax
    · simp only [hfw, if_true]
      rw [List.map_eq_bind]
    · simp [hfw]

/-- **C6**: for every state hypothesis over a network whose second-order
table is well-formed (begin bound 0 implies end bound 0), the fast batched
path `expandState` emits, as a multiset, exactly the loop-transition update
plus the updates of the slow generic successor walk
`expandStateSlow<true, allowSkip>`. The two paths do not produce the same
update set on the nose: the fast path also emits the loop update, which the
slow walk never does (see the counterexample). -/
theorem expandState_emits_loop_plus_slow (net : Network) (allowSkip : Bool)
    (hyp : StateHypothesis)
    (hwf : (net.secondOrder hyp.state).1 = 0 → (net.secondOrder hyp.state).2 = 0) :
    (expandState net allowSkip hyp).Perm
      ((if hyp.score + (net.tdp hyp.state).loop < scoreMax then
          [(hyp.state, hyp.score + (net.tdp hyp.state).loop)] else []) ++
        expandStateSlow net true allowSkip hyp) := by
  rw [expandStateSlow_nf]
  unfold expandState expandStateSkipPart
  dsimp only
  cases he : net.succ hyp.state with
  | irregular l =>
    simp only [singleSuccessor, batchSuccessorsSimpleIgnoreLabels]
    rw [expandStateSlow_nf, he]
    exact List.Perm.refl _
  | single fs =>
    simp only [singleSuccessor, SuccEncoding.successorList]
    rw [List.append_assoc]
    apply List.Perm.append_left
    exact expandCorePerm net allowSkip hyp [fs] hwf (by rw [he]; rfl)
  | batch a b =>
    simp only [singleSuccessor, batchSuccessorsSimpleIgnoreLabels,
      SuccEncoding.successorList]
    rw [List.append_assoc]
    apply List.Perm.append_left
    exact expandCorePerm net allowSkip hyp (List.range' a (b - a)) hwf (by rw [he]; rfl)

/-- **C6** witness: on the concrete single-successor network, the fast path
from the root hypothesis is a permutation of the loop update followed by the
slow expansion. -/
theorem expandState_emits_loop_plus_slow_witness :
    ((c6Net.secondOrder 0).1 = 0 → (c6Net.secondOrder 0).2 = 0) ∧
    (expandState c6Net true { state := 0, score := 0, prospect := 0, trace := 0 }).Perm
      ((if (0 : Score) + (c6Net.tdp 0).loop < scoreMax then
          [((0 : StateId), (0 : Score) + (c6Net.tdp 0).loop)] else []) ++
        expandStateSlow c6Net true true { state := 0, score := 0, prospect := 0, trace := 0 }) :=
  ⟨fun h => h, expandState_emits_loop_plus_slow c6Net true
    { state := 0, score := 0, prospect := 0, trace := 0 } (fun h => h)⟩

/-- **C6** counterexample: the loop update `(0, 1)` is emitted by the fast
path `expandState` but not by the slow walk `expandStateSlow<true, false>`,
so the two paths are not literally equal as update sets. -/
theorem expandState_loop_update_counterexample :
    ((0 : StateId), (1 : Score)) ∈
      expandState c6Net false { state := 0, score := 0, prospect := 0, trace := 0 } ∧
    ((0 : StateId), (1 : Score)) ∉
      expandStateSlow c6Net true false { state := 0, score := 0, prospect := 0, trace := 0 } := by
  constructor
  · norm_num [expandState, expandStateSkipPart, c6Net, singleSuccessor, scoreMax]
  · norm_num [expandStateSlow, slowSecondOrderExpansion, c6Net, singleSuccessor,
      batchSuccessorsSimple, SuccEncoding.successorList, scoreMax, List.range']

end RasrSearch
